import Mathlib

/-!
# Cache / TLB kernel (`Project2/kernel/cache_tlb_kernel.cpp`)

A shallow embedding of the synthetic memory-access benchmark: the size parser,
the argument loop, the clamping of the configuration, the index planner with
its Fisher-Yates shuffle, the per-thread worker and the byte accounting.

Conventions.
* `std::string` is a `List Char`.
* `size_t` / `uint64_t` values are naturals below `2 ^ 64`; every arithmetic
  step of the source that can wrap is written with an explicit `% 2 ^ 64`.
* `int` values are integers; the range check of `std::stoi` is explicit.
* C++ exceptions and undefined behaviour are explicit failures.
* A `for` loop whose bound is not structural takes an iteration bound; reaching
  it is the failure `out_of_fuel`, distinct from every failure of the program.
* The worker threads only read shared data and add to `sink`, so the timed
  section is the list of the workers' results, one per thread.
-/

namespace CacheTlbKernel

deriving instance DecidableEq for Except

/-! ## Machine integers -/

/-- Conversion of an `int` to `size_t` (reduction modulo `2 ^ 64`). -/
def toSizeT (i : Int) : Nat := (i % (2 ^ 64 : Int)).toNat

/-! ## The standard-library number parsers

`std::stoull` and `std::stoi` are not code of the repository; they are
embedded after their C++ specification (`strtoull` / `strtol` in base 10):
leading white space is skipped, one optional sign is read, then the longest
run of decimal digits; what follows the digits is ignored.  No digit at all
raises `std::invalid_argument`, a value outside the result type raises
`std::out_of_range`. -/

/-- The two exceptions the number parsers throw. -/
inductive ParseError where
  | invalid_argument
  | out_of_range
  deriving DecidableEq, Repr

/-- The characters `isspace` accepts in the C locale. -/
def isSpace (c : Char) : Bool :=
  c.toNat = 32 || (9 ≤ c.toNat && c.toNat ≤ 13)

/-- Decimal digit test (`'0'` .. `'9'`). -/
def isDigit (c : Char) : Bool :=
  48 ≤ c.toNat && c.toNat ≤ 57

/-- Value of a run of decimal digits, most significant first. -/
def digitsValue (ds : List Char) : Nat :=
  ds.foldl (fun acc c => 10 * acc + (c.toNat - 48)) 0

/-- Sign and remainder after the optional sign character. -/
def splitSign : List Char → Bool × List Char
  | '-' :: r => (true, r)
  | '+' :: r => (false, r)
  | s => (false, s)

/-- Base-10 `std::stoull`: negation of a `-` input happens in the unsigned type. -/
def stoull (s : List Char) : Except ParseError Nat :=
  let body := splitSign (s.dropWhile isSpace)
  let ds := body.2.takeWhile isDigit
  if ds = [] then .error .invalid_argument
  else
    let v := digitsValue ds
    if 2 ^ 64 ≤ v then .error .out_of_range
    else .ok (if body.1 then (2 ^ 64 - v) % 2 ^ 64 else v)

/-- Base-10 `std::stoi`: the value must fit an `int`. -/
def stoi (s : List Char) : Except ParseError Int :=
  let body := splitSign (s.dropWhile isSpace)
  let ds := body.2.takeWhile isDigit
  if ds = [] then .error .invalid_argument
  else
    let v : Int := if body.1 then - (digitsValue ds : Int) else (digitsValue ds : Int)
    if v < -(2 ^ 31) ∨ 2 ^ 31 ≤ v then .error .out_of_range
    else .ok v

/-! ## `parse_size` -/

/-- Multiplier selected by the last character of the argument. -/
def suffixMult (c : Char) : Option Nat :=
  if c = 'K' ∨ c = 'k' then some 1024
  else if c = 'M' ∨ c = 'm' then some (1024 * 1024)
  else if c = 'G' ∨ c = 'g' then some (1024 * 1024 * 1024)
  else none

/-- The function `parse_size` of the source: an empty string gives `0`; a
trailing `K/k/M/m/G/g` is popped and selects the multiplier; the product is
taken in `size_t`. -/
def parse_size (s : List Char) : Except ParseError Nat :=
  match s.getLast? with
  | none => .ok 0
  | some suffix =>
    match suffixMult suffix with
    | some mult => (stoull s.dropLast).map (fun v => (v * mult) % 2 ^ 64)
    | none => (stoull s).map (fun v => (v * 1) % 2 ^ 64)

/-! ## Configuration and the argument loop of `main` -/

/-- The local variables of `main` set by the argument loop. -/
structure Config where
  size_bytes : Nat
  stride_bytes : Nat
  threads : Int
  iters : Int
  pattern : List Char
  use_huge : Bool
  deriving DecidableEq, Repr

/-- The initial values of the locals (32 MiB, 64 bytes, one thread, four
passes, `seq`, no huge pages). -/
def defaultConfig : Config :=
  ⟨32 * 1024 * 1024, 64, 1, 4, "seq".toList, false⟩

/-- The ways a run ends without a result line. -/
inductive Failure where
  /-- `Unknown arg:` on the error stream, exit code 1. -/
  | unknown_arg (arg : List Char)
  /-- An exception of a number parser leaves `main`. -/
  | uncaught (e : ParseError)
  /-- Integer division by zero. -/
  | division_by_zero
  /-- Overflow of a signed `int` expression. -/
  | signed_overflow
  /-- An access outside the buffer or the index vector. -/
  | out_of_bounds
  /-- Conversion of a `double` outside the range of `uint64_t`. -/
  | float_cast_range
  /-- The iteration bound of a loop of the embedding was reached. -/
  | out_of_fuel
  deriving DecidableEq, Repr

/-- Lift a parser result into a run result. -/
def liftParse {α : Type} : Except ParseError α → Except Failure α
  | .ok v => .ok v
  | .error e => .error (.uncaught e)

/-- One iteration of the argument loop (`arg.rfind(p, 0) == 0` is the test
that `arg` starts with `p`; `arg.substr(n)` drops `n` characters). -/
def argStep (c : Config) (arg : List Char) : Except Failure Config :=
  if "--size=".toList.isPrefixOf arg then
    (liftParse (parse_size (arg.drop 7))).map (fun v => { c with size_bytes := v })
  else if "--stride=".toList.isPrefixOf arg then
    (liftParse (parse_size (arg.drop 9))).map (fun v => { c with stride_bytes := v })
  else if "--threads=".toList.isPrefixOf arg then
    (liftParse (stoi (arg.drop 10))).map (fun v => { c with threads := v })
  else if "--iters=".toList.isPrefixOf arg then
    (liftParse (stoi (arg.drop 8))).map (fun v => { c with iters := v })
  else if "--pattern=".toList.isPrefixOf arg then
    .ok { c with pattern := arg.drop 10 }
  else if arg = "--huge".toList then
    .ok { c with use_huge := true }
  else
    .error (.unknown_arg arg)

/-- The argument loop over `argv[1 ..]`. -/
def parseArgs (args : List (List Char)) : Except Failure Config :=
  args.foldlM argStep defaultConfig

/-- The clamping after the loop: `stride_bytes == 0` becomes `1`, then a
`size_bytes` below the stride becomes the stride. -/
def clamp (c : Config) : Config :=
  let stride_bytes := if c.stride_bytes = 0 then 1 else c.stride_bytes
  let size_bytes := if c.size_bytes < stride_bytes then stride_bytes else c.size_bytes
  { c with size_bytes := size_bytes, stride_bytes := stride_bytes }

/-- Element count: `size_bytes / sizeof(uint64_t)`, `0` replaced by `1`. -/
def elementCount (size_bytes : Nat) : Nat :=
  let elements := size_bytes / 8
  if elements = 0 then 1 else elements

/-- Stride in elements: `stride_bytes / sizeof(uint64_t)`, `0` replaced by `1`
(computed three times in the source, as `step` and as `stride_elems`). -/
def strideElems (stride_bytes : Nat) : Nat :=
  let stride_elems := stride_bytes / 8
  if stride_elems = 0 then 1 else stride_elems

/-! ## Allocation

The embedding takes the branch compiled when `MAP_HUGETLB` is defined. -/

/-- What the run cannot decide by itself: whether the huge-page `mmap` of a
given length succeeds, and the value returned by the `k`-th call of `rand()`
(a non-negative `int`). -/
structure Env where
  mmap_ok : Nat → Bool
  rand : Nat → Nat

/-- The assumed huge-page size, 2 MiB. -/
def huge_page_sz : Nat := 2 * 1024 * 1024

/-- Length of the huge-page mapping (also recomputed for `munmap`). -/
def allocSize (size_bytes : Nat) : Nat :=
  (((size_bytes + huge_page_sz - 1) % 2 ^ 64) / huge_page_sz * huge_page_sz) % 2 ^ 64

/-- The flag `huge_ok` after the allocation attempt. -/
def hugeOk (env : Env) (c : Config) : Bool :=
  c.use_huge && env.mmap_ok (allocSize c.size_bytes)

/-- The loop `for (i = 0; i < elements; ++i) buffer_hp[i] = 1` over the mapped
memory; `n` is the iteration bound. -/
def fillLoop (elements : Nat) : Nat → Nat → List Nat → Except Failure (List Nat)
  | 0, _, _ => .error .out_of_fuel
  | n + 1, i, mem =>
    if i < elements then
      if i < mem.length then fillLoop elements n (i + 1) (mem.set i 1)
      else .error .out_of_bounds
    else .ok mem

/-- The buffer after allocation and initialisation: `elements` ones from
`buffer_std.assign(elements, 1)`, or the zero-filled anonymous mapping of
`alloc_size / 8` words whose first `elements` words are set to one. -/
def initBuffer (env : Env) (c : Config) (elements : Nat) : Except Failure (List Nat) :=
  if hugeOk env c then
    fillLoop elements (elements + 1) 0 (List.replicate (allocSize c.size_bytes / 8) 0)
  else .ok (List.replicate elements 1)

/-! ## Index planner -/

/-- The loop `for (i = 0; i < elements; i += step) indices.push_back(i)`;
the first argument is the iteration bound. -/
def indexLoop (elements step : Nat) : Nat → Nat → List Nat → Except Failure (List Nat)
  | 0, _, _ => .error .out_of_fuel
  | n + 1, i, indices =>
    if i < elements then indexLoop elements step n ((i + step) % 2 ^ 64) (indices ++ [i])
    else .ok indices

/-- The call `std::swap(indices[a], indices[b])`. -/
def swapAt (indices : List Nat) (a b : Nat) : Except Failure (List Nat) :=
  match indices[a]?, indices[b]? with
  | some x, some y => .ok ((indices.set a y).set b x)
  | _, _ => .error .out_of_bounds

/-- The Fisher-Yates loop `for (i = indices.size(); i > 1; --i)`, with
`j = rand() % i`; `k` counts the calls of `rand()` made so far. -/
def shuffleLoop (rand : Nat → Nat) : Nat → Nat → List Nat → Except Failure (List Nat)
  | 0, _, indices => .ok indices
  | 1, _, indices => .ok indices
  | i + 2, k, indices =>
    (swapAt indices (i + 1) (rand k % (i + 2))).bind (shuffleLoop rand (i + 1) (k + 1))

/-- The ascending index vector before the shuffle. -/
def sequentialIndices (elements stride_bytes : Nat) : Except Failure (List Nat) :=
  indexLoop elements (strideElems stride_bytes) (elements + 1) 0 []

/-- The vector `indices` that `main` builds: empty unless the pattern is
`random`, otherwise the ascending offsets shuffled. -/
def planIndices (rand : Nat → Nat) (pattern : List Char) (elements stride_bytes : Nat) :
    Except Failure (List Nat) :=
  if pattern = "random".toList then
    (sequentialIndices elements stride_bytes).bind
      (fun indices => shuffleLoop rand indices.length 0 indices)
  else .ok []

/-! ## Worker -/

/-- The half-open range `[start, end)` of thread `tid`:
`chunk = elements / threads`, `start = tid * chunk`,
`end = (tid == threads - 1) ? elements : start + chunk`. -/
def workerRange (elements : Nat) (threads tid : Int) : Except Failure (Nat × Nat) :=
  if toSizeT threads = 0 then .error .division_by_zero
  else
    let chunk := elements / toSizeT threads
    let start := (toSizeT tid * chunk) % 2 ^ 64
    if threads - 1 < -(2 ^ 31) then .error .signed_overflow
    else .ok (start, if tid = threads - 1 then elements else (start + chunk) % 2 ^ 64)

/-- The accumulator `local` of a worker, with the list of the element
offsets it has read so far (in order). -/
structure WorkerState where
  localSum : Nat
  reads : List Nat
  deriving DecidableEq, Repr

/-- The statement `local += buffer_hp[idx]`. -/
def readElem (buffer : List Nat) (idx : Nat) (st : WorkerState) : Except Failure WorkerState :=
  match buffer[idx]? with
  | some v => .ok ⟨(st.localSum + v) % 2 ^ 64, st.reads ++ [idx]⟩
  | none => .error .out_of_bounds

/-- One random pass: the range-for over `indices`, reading the offsets that
lie in `[start, end)`. -/
def randomPass (buffer indices : List Nat) (start end_ : Nat) (st : WorkerState) :
    Except Failure WorkerState :=
  indices.foldlM
    (fun st idx => if start ≤ idx ∧ idx < end_ then readElem buffer idx st else .ok st) st

/-- The loop `for (i = start; i < end; i += stride_elems)` of a sequential
pass; the first argument is the iteration bound. -/
def seqLoop (buffer : List Nat) (end_ stride_elems : Nat) :
    Nat → Nat → WorkerState → Except Failure WorkerState
  | 0, _, _ => .error .out_of_fuel
  | n + 1, i, st =>
    if i < end_ then
      (readElem buffer i st).bind (seqLoop buffer end_ stride_elems n ((i + stride_elems) % 2 ^ 64))
    else .ok st

/-- One sequential pass over `[start, end)`. -/
def seqPass (buffer : List Nat) (start end_ stride_elems : Nat) (st : WorkerState) :
    Except Failure WorkerState :=
  seqLoop buffer end_ stride_elems (end_ - start + 1) start st

/-- One pass of the worker: the test `pattern == "random"` selects the branch. -/
def workerPass (buffer indices : List Nat) (pattern : List Char) (start end_ stride_elems : Nat)
    (st : WorkerState) : Except Failure WorkerState :=
  if pattern = "random".toList then randomPass buffer indices start end_ st
  else seqPass buffer start end_ stride_elems st

/-- The loop `for (it = 0; it < iters; ++it)`, as `n` remaining passes. -/
def passLoop (pass : WorkerState → Except Failure WorkerState) :
    Nat → WorkerState → Except Failure WorkerState
  | 0, st => .ok st
  | n + 1, st => (pass st).bind (passLoop pass n)

/-- The lambda `worker(tid)`: the value it adds to `sink`, with its reads. -/
def worker (buffer indices : List Nat) (c : Config) (elements : Nat) (tid : Int) :
    Except Failure WorkerState :=
  (workerRange elements c.threads tid).bind (fun r =>
    passLoop (workerPass buffer indices c.pattern r.1 r.2 (strideElems c.stride_bytes))
      c.iters.toNat ⟨0, []⟩)

/-! ## Byte accounting

The accounting is done in `double`.  Every value that occurs is an integer, so
a `double` is represented by the integer it holds and each conversion or
product is followed by the rounding to a 53-bit significand (to nearest, ties
to even).  Magnitudes stay far below the largest finite `double`. -/

/-- Rounding of a natural number to the nearest `double`. -/
def roundNat (n : Nat) : Nat :=
  if n < 2 ^ 53 then n
  else
    let e := Nat.log2 n - 52
    let q := n / 2 ^ e
    let r := n % 2 ^ e
    let up : Bool := 2 ^ e < 2 * r || (2 * r = 2 ^ e && q % 2 = 1)
    (if up then q + 1 else q) * 2 ^ e

/-- Rounding of an integer to the nearest `double`. -/
def roundInt (i : Int) : Int :=
  if i < 0 then - (roundNat i.natAbs : Int) else (roundNat i.natAbs : Int)

/-- Product of two integer-valued `double`s. -/
def mulDouble (a b : Int) : Int := roundInt (a * b)

/-- The conversion `(uint64_t)total_bytes`. -/
def doubleToU64 (d : Int) : Except Failure Nat :=
  if 0 ≤ d ∧ d < 2 ^ 64 then .ok d.toNat else .error .float_cast_range

/-- The `double total_bytes` of `main`:
`accesses_per_thread = ((elements / threads) + stride_elems - 1) / stride_elems * (double)iters`,
`total_accesses = accesses_per_thread * threads`,
`total_bytes = total_accesses * stride_bytes`.  (The sum
`chunk + stride_elems` is at least one, so the subtraction does not wrap.) -/
def totalBytesDouble (c : Config) (elements : Nat) : Except Failure Int :=
  if toSizeT c.threads = 0 then .error .division_by_zero
  else
    let stride_elems := strideElems c.stride_bytes
    let per_thread : Nat := ((elements / toSizeT c.threads + stride_elems - 1) % 2 ^ 64) / stride_elems
    let accesses_per_thread := mulDouble (roundInt per_thread) (roundInt c.iters)
    let total_accesses := mulDouble accesses_per_thread (roundInt c.threads)
    .ok (mulDouble total_accesses (roundInt c.stride_bytes))

/-- The field `total_bytes_touched` of the result line. -/
def totalBytesTouched (c : Config) (elements : Nat) : Except Failure Nat :=
  (totalBytesDouble c elements).bind doubleToU64

/-! ## The run -/

/-- What a completed run leaves behind: the fields of the result line (the
elapsed time and the throughput computed from it are wall-clock values and are
not represented), the two diagnostics, the final `sink`, the length handed to
`munmap` if any, and the reads of the warm-up and of each timed worker. -/
structure Output where
  size_bytes : Nat
  stride_bytes : Nat
  threads : Int
  iters : Int
  pattern : List Char
  total_bytes_touched : Nat
  huge_pages_used : Nat
  warn_fallback : Bool
  impossible_value : Bool
  sink : Nat
  munmap_len : Option Nat
  warmup_reads : List Nat
  timed_reads : List (List Nat)
  deriving DecidableEq, Repr

/-- The workers of the timed section, `t = 0 .. threads - 1`. -/
def timedWorkers (buffer indices : List Nat) (c : Config) (elements : Nat) :
    Except Failure (List WorkerState) :=
  (List.range c.threads.toNat).mapM (fun (t : Nat) => worker buffer indices c elements (t : Int))

/-- The value of `sink` after all `fetch_add`s, starting from `0`. -/
def sinkAfter (results : List WorkerState) : Nat :=
  results.foldl (fun s r => (s + r.localSum) % 2 ^ 64) 0

/-- The body of `main` after the argument loop. -/
def run (env : Env) (c0 : Config) : Except Failure Output :=
  let c := clamp c0
  let elements := elementCount c.size_bytes
  let huge_ok := hugeOk env c
  (initBuffer env c elements).bind (fun buffer =>
  (planIndices env.rand c.pattern elements c.stride_bytes).bind (fun indices =>
  (worker buffer indices c elements 0).bind (fun warm =>
  (timedWorkers buffer indices c elements).bind (fun results =>
  (totalBytesTouched c elements).bind (fun total =>
    .ok {
      size_bytes := c.size_bytes
      stride_bytes := c.stride_bytes
      threads := c.threads
      iters := c.iters
      pattern := c.pattern
      total_bytes_touched := total
      huge_pages_used := if huge_ok then 1 else 0
      warn_fallback := c.use_huge && !huge_ok
      impossible_value := sinkAfter results = 42
      sink := sinkAfter results
      munmap_len := if huge_ok then some (allocSize c.size_bytes) else none
      warmup_reads := warm.reads
      timed_reads := results.map (fun r => r.reads) })))))

/-- The whole program: argument loop, then the run. -/
def mainProgram (env : Env) (args : List (List Char)) : Except Failure Output :=
  (parseArgs args).bind (run env)

/-! ## Specification-side notions used by the statements -/

/-- Boundaries of the partition into `n` ranges: `t * chunk` below `n`,
`elements` from `n` on. -/
def boundary (elements n t : Nat) : Nat :=
  if t < n then t * (elements / n) else elements

/-- The ascending list of all multiples of `step` below `elements`
(`0, step, 2 * step, ...`). -/
def multiplesBelow (elements step : Nat) : List Nat :=
  (List.range elements).filter (fun x => x % step = 0)

/-- Every one of the first `elements` words of the buffer holds `1`. -/
def AllOnes (buffer : List Nat) (elements : Nat) : Prop :=
  ∀ idx, idx < elements → buffer[idx]? = some 1

/-- Number of iterations of `for (i = start; i < end; i += stride_elems)`. -/
def seqCount (start end_ stride_elems : Nat) : Nat :=
  (end_ - start + stride_elems - 1) / stride_elems

/-- The offsets of the shared index vector that lie in `[start, end)`, in
the order of the vector. -/
def inRange (indices : List Nat) (start end_ : Nat) : List Nat :=
  indices.filter (fun idx => start ≤ idx ∧ idx < end_)

/-- The offsets thread-range `[start, end)` is read at in one pass: the
offsets of the index vector inside the range for `random`, otherwise
`start, start + stride_elems, ...` below `end`. -/
def passReads (pattern : List Char) (indices : List Nat) (start end_ stride_elems : Nat) :
    List Nat :=
  if pattern = "random".toList then inRange indices start end_
  else List.range' start (seqCount start end_ stride_elems) stride_elems

/-- The value and the reads of a worker that made `passes` passes, each
reading the offsets `reads` of a buffer of ones. -/
def workerResult (passes : Nat) (reads : List Nat) : WorkerState :=
  ⟨(passes * reads.length) % 2 ^ 64, (List.replicate passes reads).flatten⟩

/-- A configuration the benchmark is meant for: `size_t` and `int` values
with at least one thread and no negative pass count. -/
structure ValidConfig (c : Config) : Prop where
  size_lt : c.size_bytes < 2 ^ 64
  stride_lt : c.stride_bytes < 2 ^ 64
  threads_pos : 1 ≤ c.threads
  threads_lt : c.threads < 2 ^ 31
  iters_nonneg : 0 ≤ c.iters
  iters_lt : c.iters < 2 ^ 31

/-- The `double total_bytes` of the configuration lies in the range of
`uint64_t`, so that the conversion for the result line is defined. -/
def totalFits (c : Config) : Bool :=
  match totalBytesDouble (clamp c) (elementCount (clamp c).size_bytes) with
  | .ok d => decide (0 ≤ d ∧ d < 2 ^ 64)
  | .error _ => false

/-- The index vector of a run, `[]` if its construction fails. -/
def indicesOf (rand : Nat → Nat) (c : Config) : List Nat :=
  match planIndices rand (clamp c).pattern (elementCount (clamp c).size_bytes)
      (clamp c).stride_bytes with
  | .ok indices => indices
  | .error _ => []

/-- The offsets thread `t` of `n` reads in one pass of the run of `c`. -/
def threadReads (rand : Nat → Nat) (c : Config) (n t : Nat) : List Nat :=
  passReads (clamp c).pattern (indicesOf rand c)
    (boundary (elementCount (clamp c).size_bytes) n t)
    (boundary (elementCount (clamp c).size_bytes) n (t + 1))
    (strideElems (clamp c).stride_bytes)

/-- The part of a size argument handed to `std::stoull`: the string without
its last character when that is one of `K k M m G g`, otherwise the string. -/
def digitPortion (s : List Char) : List Char :=
  match s.getLast? with
  | some c => if (suffixMult c).isSome then s.dropLast else s
  | none => s

/-- An argument one of the branches of the argument loop accepts: it starts
with `--size=`, `--stride=`, `--threads=`, `--iters=` or `--pattern=`, or it is
exactly `--huge`. -/
def isKnownFlag (arg : List Char) : Bool :=
  "--size=".toList.isPrefixOf arg || "--stride=".toList.isPrefixOf arg
    || "--threads=".toList.isPrefixOf arg || "--iters=".toList.isPrefixOf arg
    || "--pattern=".toList.isPrefixOf arg || decide (arg = "--huge".toList)

/-- The value `main` returns: `0` after the result line, `1` after an unknown
argument; the other failures do not return from `main`. -/
def exitCode : Except Failure Output → Option Int
  | .ok _ => some 0
  | .error (.unknown_arg _) => some 1
  | .error _ => none

/-- The line `Unknown arg: <arg>` written to the error stream before `return 1`. -/
def unknownArgLine : Except Failure Output → Option (List Char)
  | .error (.unknown_arg arg) => some ("Unknown arg: ".toList ++ arg ++ [Char.ofNat 10])
  | _ => none

/-- The run wrote its result line to the standard output. -/
def emitsResultLine : Except Failure Output → Bool
  | .ok _ => true
  | .error _ => false

/-- The decimal digits a digit portion starts with once its leading white
space and at most one sign character (`+` or `-`) are skipped: the digits
`std::stoull` converts. -/
def leadingDigits (p : List Char) : List Char :=
  (splitSign (p.dropWhile isSpace)).2.takeWhile isDigit

/-- The digit portion has a minus sign in front of its digits. -/
def hasMinus (p : List Char) : Bool :=
  (splitSign (p.dropWhile isSpace)).1

/-- The multiplier of a size argument: 1024, 1024 ^ 2 or 1024 ^ 3 for a last
character `K k`, `M m`, `G g`, otherwise 1. -/
def multiplierOf (s : List Char) : Nat :=
  match s.getLast? with
  | some c => (suffixMult c).getD 1
  | none => 1

/-! # Theorems -/

/-! ## Machine-integer facts -/

theorem toSizeT_natCast (n : Nat) (h : n < 2 ^ 64) : toSizeT (n : Int) = n := by
  unfold toSizeT
  have h1 : ((n : Int) % (2 ^ 64 : Int)) = (n : Int) := by
    apply Int.emod_eq_of_lt <;> omega
  rw [h1]; simp

/-! ## Partition of the element range -/

theorem boundary_mono (elements n : Nat) : Monotone (boundary elements n) := by
  intro t u htu
  unfold boundary
  have hc : n * (elements / n) ≤ elements := Nat.mul_div_le elements n
  by_cases hu : u < n
  · have ht : t < n := lt_of_le_of_lt htu hu
    simp only [ht, hu, if_true]
    exact Nat.mul_le_mul_right _ htu
  · simp only [hu, if_false]
    split
    · rename_i ht
      calc t * (elements / n) ≤ n * (elements / n) := Nat.mul_le_mul_right _ (le_of_lt ht)
        _ ≤ elements := hc
    · exact le_refl _

theorem exists_interval (b : Nat → Nat) (x : Nat) :
    ∀ n, b 0 ≤ x → x < b n → ∃ t, t < n ∧ b t ≤ x ∧ x < b (t + 1) := by
  intro n
  induction n with
  | zero => intro h0 hx; omega
  | succ n ih =>
    intro h0 hx
    by_cases h : x < b n
    · obtain ⟨t, ht, h1, h2⟩ := ih h0 h
      exact ⟨t, by omega, h1, h2⟩
    · exact ⟨n, by omega, by omega, hx⟩

theorem unique_interval (b : Nat → Nat) (hb : Monotone b) (x t u : Nat)
    (ht : b t ≤ x ∧ x < b (t + 1)) (hu : b u ≤ x ∧ x < b (u + 1)) : t = u := by
  rcases Nat.lt_trichotomy t u with h | h | h
  · have := hb (show t + 1 ≤ u by omega); omega
  · exact h
  · have := hb (show u + 1 ≤ t by omega); omega

theorem workerRange_eq (elements n t : Nat) (he : elements < 2 ^ 64) (hn : 1 ≤ n)
    (hn2 : n < 2 ^ 31) (ht : t < n) :
    workerRange elements (n : Int) (t : Int)
      = .ok (boundary elements n t, boundary elements n (t + 1)) := by
  have hc : n * (elements / n) ≤ elements := Nat.mul_div_le elements n
  have h1 : t * (elements / n) ≤ n * (elements / n) := Nat.mul_le_mul_right _ (le_of_lt ht)
  unfold workerRange
  rw [toSizeT_natCast n (by omega), toSizeT_natCast t (by omega)]
  have hn0 : ¬ n = 0 := by omega
  have hs : ¬ ((n : Int) - 1 < -(2 ^ 31)) := by omega
  simp only [hn0, hs, if_false]
  have hm : t * (elements / n) % 2 ^ 64 = t * (elements / n) := Nat.mod_eq_of_lt (by omega)
  rw [hm]
  unfold boundary
  simp only [ht, if_true]
  by_cases hl : t + 1 < n
  · have h2 : (t + 1) * (elements / n) ≤ n * (elements / n) :=
      Nat.mul_le_mul_right _ (le_of_lt hl)
    have h3 : (t + 1) * (elements / n) = t * (elements / n) + elements / n := by ring
    have hne : ¬ ((t : Int) = (n : Int) - 1) := by omega
    simp only [hl, hne, if_true, if_false]
    rw [Nat.mod_eq_of_lt (by omega), h3]
  · have heq : (t : Int) = (n : Int) - 1 := by omega
    simp only [hl, heq, if_true, if_false]

/-- C1. For `element_count >= 1` and `thread_count >= 1` the worker's ranges
`[start_t, end_t)` are computed without failure, start at `0`, are contiguous
(`end_t = start_{t+1}`), end at `element_count`, stay inside
`[0, element_count)`, and every offset below `element_count` lies in exactly
one of them (disjoint, exact union); for four threads and 100 elements they
are `[0,25) [25,50) [50,75) [75,100)`. -/
theorem C1_partition_contiguous_disjoint_exact (elements n : Nat)
    (he1 : 1 ≤ elements) (he : elements < 2 ^ 64) (hn : 1 ≤ n) (hn2 : n < 2 ^ 31) :
    ∃ start end_ : Nat → Nat,
      (∀ t : Nat, t < n → workerRange elements (n : Int) (t : Int) = .ok (start t, end_ t)) ∧
      (∀ t : Nat, t + 1 < n → start t = t * (elements / n) ∧ end_ t = start t + elements / n) ∧
      start (n - 1) = (n - 1) * (elements / n) ∧
      start 0 = 0 ∧
      (∀ t : Nat, t + 1 < n → end_ t = start (t + 1)) ∧
      end_ (n - 1) = elements ∧
      (∀ t : Nat, t < n → start t ≤ end_ t ∧ end_ t ≤ elements) ∧
      (∀ x : Nat, x < elements → ∃! t, t < n ∧ start t ≤ x ∧ x < end_ t) ∧
      (List.range 4).map (fun (t : Nat) => workerRange 100 4 (t : Int))
        = [.ok (0, 25), .ok (25, 50), .ok (50, 75), .ok (75, 100)] := by
  refine ⟨boundary elements n, fun t => boundary elements n (t + 1), ?_, ?_, ?_, ?_, ?_, ?_, ?_,
    ?_, by decide⟩
  · intro t ht
    exact workerRange_eq elements n t he hn hn2 ht
  · intro t ht
    have h1 : t < n := by omega
    simp only [boundary, ht, h1, if_true]
    constructor
    · trivial
    · ring
  · have h1 : n - 1 < n := by omega
    simp only [boundary, h1, if_true]
  · have h1 : 0 < n := by omega
    simp [boundary, h1]
  · intro t _
    rfl
  · have h1 : ¬ (n - 1 + 1 < n) := by omega
    simp only [boundary, h1, if_false]
  · intro t ht
    refine ⟨boundary_mono elements n (Nat.le_succ t), ?_⟩
    have := boundary_mono elements n (show t + 1 ≤ n by omega)
    simpa [boundary] using this
  · intro x hx
    have h0 : boundary elements n 0 ≤ x := by
      have h1 : 0 < n := by omega
      simp [boundary, h1]
    have hN : x < boundary elements n n := by simp [boundary]; exact hx
    obtain ⟨t, ht, h1, h2⟩ := exists_interval (boundary elements n) x n h0 hN
    refine ⟨t, ⟨ht, h1, h2⟩, ?_⟩
    rintro u ⟨_, hu1, hu2⟩
    exact unique_interval (boundary elements n) (boundary_mono elements n) x u t ⟨hu1, hu2⟩ ⟨h1, h2⟩

/-- Witness for C1: 103 elements over 4 threads (a remainder of 3). -/
theorem C1_partition_witness :
    ∃ start end_ : Nat → Nat,
      (∀ t : Nat, t < 4 → workerRange 103 ((4 : Nat) : Int) (t : Int) = .ok (start t, end_ t)) ∧
      (∀ t : Nat, t + 1 < 4 → start t = t * (103 / 4) ∧ end_ t = start t + 103 / 4) ∧
      start (4 - 1) = (4 - 1) * (103 / 4) ∧
      start 0 = 0 ∧
      (∀ t : Nat, t + 1 < 4 → end_ t = start (t + 1)) ∧
      end_ (4 - 1) = 103 ∧
      (∀ t : Nat, t < 4 → start t ≤ end_ t ∧ end_ t ≤ 103) ∧
      (∀ x : Nat, x < 103 → ∃! t, t < 4 ∧ start t ≤ x ∧ x < end_ t) ∧
      (List.range 4).map (fun (t : Nat) => workerRange 100 4 (t : Int))
        = [.ok (0, 25), .ok (25, 50), .ok (50, 75), .ok (75, 100)] :=
  C1_partition_contiguous_disjoint_exact 103 4 (by decide) (by decide) (by decide) (by decide)

/-! ## Index planner: the ascending offsets -/

/-- Number of loop iterations from `i` with increment `step` up to `elements`. -/
theorem iterCount_step (d step : Nat) (hs : 0 < step) (hd : 0 < d) :
    (d + step - 1) / step = (d - step + step - 1) / step + 1 := by
  by_cases h : step ≤ d
  · have h1 : d + step - 1 = (d - step + step - 1) + step := by omega
    rw [h1, Nat.add_div_right _ hs]
  · have h1 : d - step = 0 := by omega
    have h2 : (0 + step - 1) / step = 0 := Nat.div_eq_of_lt (by omega)
    have h3 : (d + step - 1) / step = 1 := by
      apply Nat.div_eq_of_lt_le <;> omega
    rw [h1, h2, h3]

theorem indexLoop_eq (elements step : Nat) (hs : 0 < step) (hb : elements + step ≤ 2 ^ 64) :
    ∀ (n i : Nat) (acc : List Nat), elements - i < n →
      indexLoop elements step n i acc
        = .ok (acc ++ List.range' i ((elements - i + step - 1) / step) step) := by
  intro n
  induction n with
  | zero => intro i acc h; omega
  | succ n ih =>
    intro i acc h
    unfold indexLoop
    by_cases hi : i < elements
    · have hm : (i + step) % 2 ^ 64 = i + step := Nat.mod_eq_of_lt (by omega)
      simp only [hi, if_true, hm]
      rw [ih (i + step) (acc ++ [i]) (by omega)]
      have hc := iterCount_step (elements - i) step hs (by omega)
      have hd : elements - i - step = elements - (i + step) := by omega
      rw [hd] at hc
      rw [hc, List.range'_succ, List.append_assoc]
      rfl
    · have h0 : elements - i = 0 := by omega
      have h2 : (0 + step - 1) / step = 0 := Nat.div_eq_of_lt (by omega)
      simp only [hi, if_false, h0, h2, List.range', List.append_nil]

theorem mem_multiplesBelow (elements step x : Nat) :
    x ∈ multiplesBelow elements step ↔ x < elements ∧ x % step = 0 := by
  simp [multiplesBelow]

theorem sorted_multiplesBelow (elements step : Nat) :
    (multiplesBelow elements step).Sorted (· < ·) :=
  (List.sorted_lt_range elements).filter _

theorem range'_eq_multiplesBelow (elements step : Nat) (hs : 0 < step) :
    List.range' 0 ((elements + step - 1) / step) step = multiplesBelow elements step := by
  have hsorted : (List.range' 0 ((elements + step - 1) / step) step).Sorted (· < ·) :=
    List.pairwise_lt_range' 0 _ step hs
  refine List.eq_of_perm_of_sorted ?_ hsorted (sorted_multiplesBelow elements step)
  rw [List.perm_ext_iff_of_nodup hsorted.nodup (sorted_multiplesBelow elements step).nodup]
  intro x
  rw [mem_multiplesBelow, List.mem_range']
  constructor
  · rintro ⟨i, hi, rfl⟩
    have h1 : (i + 1) * step ≤ elements + step - 1 := by
      rw [← Nat.le_div_iff_mul_le hs]; omega
    have h2 : (i + 1) * step = step * i + step := by ring
    refine ⟨by omega, ?_⟩
    simp
  · rintro ⟨hx, hmod⟩
    refine ⟨x / step, ?_, ?_⟩
    · have h1 : step * (x / step) = x := Nat.mul_div_cancel' (Nat.dvd_of_mod_eq_zero hmod)
      have h2 : (x / step + 1) * step ≤ elements + step - 1 := by
        have : (x / step + 1) * step = step * (x / step) + step := by ring
        omega
      have := (Nat.le_div_iff_mul_le hs).mpr h2
      omega
    · have h1 : step * (x / step) = x := Nat.mul_div_cancel' (Nat.dvd_of_mod_eq_zero hmod)
      omega

theorem strideElems_pos (stride_bytes : Nat) : 0 < strideElems stride_bytes := by
  unfold strideElems
  simp only
  split <;> omega

theorem strideElems_eq_max (stride_bytes : Nat) :
    strideElems stride_bytes = max 1 (stride_bytes / 8) := by
  unfold strideElems
  simp only
  split <;> omega

theorem strideElems_le (stride_bytes : Nat) (h : stride_bytes < 2 ^ 64) :
    strideElems stride_bytes < 2 ^ 61 := by
  unfold strideElems
  simp only
  split <;> omega

theorem sequentialIndices_eq (elements stride_bytes : Nat) (he : elements < 2 ^ 63)
    (hs : stride_bytes < 2 ^ 64) :
    sequentialIndices elements stride_bytes
      = .ok (multiplesBelow elements (strideElems stride_bytes)) := by
  unfold sequentialIndices
  have h1 := strideElems_le stride_bytes hs
  rw [indexLoop_eq elements _ (strideElems_pos stride_bytes) (by omega) _ 0 [] (by omega)]
  simp only [Nat.sub_zero, List.nil_append]
  rw [range'_eq_multiplesBelow elements _ (strideElems_pos stride_bytes)]

/-! ## Index planner: the shuffle -/

theorem swapAt_ok (l : List Nat) (a b : Nat) (ha : a < l.length) (hb : b < l.length) :
    ∃ l2, swapAt l a b = .ok l2 ∧ l2.Perm l := by
  unfold swapAt
  rw [List.getElem?_eq_getElem ha, List.getElem?_eq_getElem hb]
  refine ⟨_, rfl, ?_⟩
  rw [List.perm_iff_count]
  intro z
  have hb2 : b < (l.set a l[b]).length := by simpa using hb
  rw [List.count_set _ _ _ _ hb2, List.count_set _ _ _ _ ha]
  have hget : (l.set a l[b])[b] = l[b] := by
    rw [List.getElem_set]
    split
    · rfl
    · rfl
  rw [hget]
  have hca : (if l[a] == z then 1 else 0) ≤ l.count z := by
    split
    · rename_i h
      have : l[a] = z := by simpa using h
      rw [← this]
      exact List.count_pos_iff.mpr (List.getElem_mem ha)
    · omega
  omega

theorem shuffleLoop_ok (rand : Nat → Nat) :
    ∀ (i k : Nat) (l : List Nat), i ≤ l.length →
      ∃ l2, shuffleLoop rand i k l = .ok l2 ∧ l2.Perm l := by
  intro i
  induction i using Nat.strong_induction_on with
  | _ i ih =>
    intro k l hi
    match i, ih, hi with
    | 0, _, _ => exact ⟨l, rfl, List.Perm.refl l⟩
    | 1, _, _ => exact ⟨l, rfl, List.Perm.refl l⟩
    | i + 2, ih, hi =>
      have hj : rand k % (i + 2) < i + 2 := Nat.mod_lt _ (by omega)
      obtain ⟨l1, h1, p1⟩ := swapAt_ok l (i + 1) (rand k % (i + 2)) (by omega) (by omega)
      obtain ⟨l2, h2, p2⟩ := ih (i + 1) (by omega) (k + 1) l1 (by rw [p1.length_eq]; omega)
      refine ⟨l2, ?_, p2.trans p1⟩
      unfold shuffleLoop
      rw [h1]
      exact h2

theorem planIndices_random_ok (rand : Nat → Nat) (elements stride_bytes : Nat)
    (he : elements < 2 ^ 63) (hs : stride_bytes < 2 ^ 64) :
    ∃ indices, planIndices rand "random".toList elements stride_bytes = .ok indices ∧
      indices.Perm (multiplesBelow elements (strideElems stride_bytes)) := by
  obtain ⟨l2, h2, p2⟩ := shuffleLoop_ok rand
    (multiplesBelow elements (strideElems stride_bytes)).length 0
    (multiplesBelow elements (strideElems stride_bytes)) (le_refl _)
  refine ⟨l2, ?_, p2⟩
  unfold planIndices
  rw [sequentialIndices_eq elements stride_bytes he hs]
  simpa using h2

/-- C2. For `element_count >= 1` and `stride_bytes >= 1` (as `size_t` values,
the element count below `2 ^ 63`) and any values returned by `rand()`, the
index vector after the Fisher-Yates loop is a permutation of the ascending
list of all multiples of `step = max 1 (stride_bytes / 8)` below
`element_count`: every such offset occurs exactly once, nothing else occurs,
and sorting the vector gives that ascending list. -/
theorem C2_shuffled_indices_permutation (rand : Nat → Nat) (elements stride_bytes : Nat)
    (he1 : 1 ≤ elements) (he : elements < 2 ^ 63)
    (hs1 : 1 ≤ stride_bytes) (hs : stride_bytes < 2 ^ 64) :
    ∃ indices, planIndices rand "random".toList elements stride_bytes = .ok indices ∧
      indices.Perm (multiplesBelow elements (max 1 (stride_bytes / 8))) ∧
      (∀ x, x < elements → x % max 1 (stride_bytes / 8) = 0 → indices.count x = 1) ∧
      (∀ x, x ∈ indices → x < elements ∧ x % max 1 (stride_bytes / 8) = 0) ∧
      indices.insertionSort (· ≤ ·) = multiplesBelow elements (max 1 (stride_bytes / 8)) ∧
      (∀ sorted : List Nat, sorted.Perm indices → sorted.Sorted (· ≤ ·) →
        sorted = multiplesBelow elements (max 1 (stride_bytes / 8))) := by
  obtain ⟨indices, h, p⟩ := planIndices_random_ok rand elements stride_bytes he hs
  rw [strideElems_eq_max] at p
  have hsorted := (sorted_multiplesBelow elements (max 1 (stride_bytes / 8))).le_of_lt
  refine ⟨indices, h, p, ?_, ?_, ?_, ?_⟩
  · intro x hx hm
    rw [p.count_eq]
    exact List.count_eq_one_of_mem
      (sorted_multiplesBelow elements (max 1 (stride_bytes / 8))).nodup
      ((mem_multiplesBelow _ _ _).mpr ⟨hx, hm⟩)
  · intro x hx
    exact (mem_multiplesBelow _ _ _).mp (p.subset hx)
  · exact List.eq_of_perm_of_sorted ((List.perm_insertionSort _ indices).trans p)
      (List.sorted_insertionSort _ indices) hsorted
  · intro sorted hp hs
    exact List.eq_of_perm_of_sorted (hp.trans p) hs hsorted

/-- Witness for C2: 100 elements, a 64-byte stride, `rand()` returning
`7 * k + 3` at its `k`-th call. -/
theorem C2_shuffled_indices_witness :
    ∃ indices, planIndices (fun k => 7 * k + 3) "random".toList 100 64 = .ok indices ∧
      indices.Perm (multiplesBelow 100 (max 1 (64 / 8))) ∧
      (∀ x, x < 100 → x % max 1 (64 / 8) = 0 → indices.count x = 1) ∧
      (∀ x, x ∈ indices → x < 100 ∧ x % max 1 (64 / 8) = 0) ∧
      indices.insertionSort (· ≤ ·) = multiplesBelow 100 (max 1 (64 / 8)) ∧
      (∀ sorted : List Nat, sorted.Perm indices → sorted.Sorted (· ≤ ·) →
        sorted = multiplesBelow 100 (max 1 (64 / 8))) :=
  C2_shuffled_indices_permutation (fun k => 7 * k + 3) 100 64
    (by decide) (by decide) (by decide) (by decide)

/-! ## Worker passes over a buffer of ones -/

theorem readElem_one (buffer : List Nat) (elements idx : Nat) (hb : AllOnes buffer elements)
    (h : idx < elements) (st : WorkerState) :
    readElem buffer idx st = .ok ⟨(st.localSum + 1) % 2 ^ 64, st.reads ++ [idx]⟩ := by
  unfold readElem
  rw [hb idx h]

theorem seqLoop_eq (buffer : List Nat) (elements end_ stride : Nat)
    (hb : AllOnes buffer elements) (he : end_ ≤ elements) (hs : 0 < stride)
    (hov : end_ + stride ≤ 2 ^ 64) :
    ∀ (n i : Nat) (st : WorkerState), end_ - i < n → st.localSum < 2 ^ 64 →
      seqLoop buffer end_ stride n i st
        = .ok ⟨(st.localSum + seqCount i end_ stride) % 2 ^ 64,
            st.reads ++ List.range' i (seqCount i end_ stride) stride⟩ := by
  intro n
  induction n with
  | zero => intro i st h _; omega
  | succ n ih =>
    intro i st h hst
    unfold seqLoop
    by_cases hi : i < end_
    · have hm : (i + stride) % 2 ^ 64 = i + stride := Nat.mod_eq_of_lt (by omega)
      simp only [hi, if_true, hm]
      rw [readElem_one buffer elements i hb (by omega) st]
      simp only [Except.bind]
      rw [ih (i + stride) _ (by omega) (Nat.mod_lt _ (by norm_num))]
      have hc := iterCount_step (end_ - i) stride hs (by omega)
      have hd : end_ - i - stride = end_ - (i + stride) := by omega
      rw [hd] at hc
      have hc2 : seqCount i end_ stride = seqCount (i + stride) end_ stride + 1 := hc
      rw [hc2, List.range'_succ, List.append_assoc]
      simp only [List.singleton_append]
      congr 2
      omega
    · have h0 : end_ - i = 0 := by omega
      have h2 : (0 + stride - 1) / stride = 0 := Nat.div_eq_of_lt (by omega)
      have h3 : seqCount i end_ stride = 0 := by unfold seqCount; rw [h0, h2]
      simp only [hi, if_false, h3, List.range', List.append_nil, Nat.add_zero]
      rw [Nat.mod_eq_of_lt hst]


theorem seqPass_eq (buffer : List Nat) (elements start end_ stride : Nat)
    (hb : AllOnes buffer elements) (he : end_ ≤ elements) (hs : 0 < stride)
    (hov : end_ + stride ≤ 2 ^ 64) (st : WorkerState) (hst : st.localSum < 2 ^ 64) :
    seqPass buffer start end_ stride st
      = .ok ⟨(st.localSum + seqCount start end_ stride) % 2 ^ 64,
          st.reads ++ List.range' start (seqCount start end_ stride) stride⟩ :=
  seqLoop_eq buffer elements end_ stride hb he hs hov _ start st (by omega) hst

theorem randomPass_eq (buffer : List Nat) (elements start end_ : Nat)
    (hb : AllOnes buffer elements) :
    ∀ (indices : List Nat) (st : WorkerState), (∀ idx, idx ∈ indices → idx < elements) →
      st.localSum < 2 ^ 64 →
      randomPass buffer indices start end_ st
        = .ok ⟨(st.localSum + (inRange indices start end_).length) % 2 ^ 64,
            st.reads ++ inRange indices start end_⟩ := by
  intro indices
  induction indices with
  | nil =>
    intro st _ hst
    have h0 : st.localSum % 2 ^ 64 = st.localSum := Nat.mod_eq_of_lt hst
    simp only [randomPass, inRange, List.foldlM_nil, List.filter_nil, List.length_nil,
      Nat.add_zero, List.append_nil, h0]
    rfl
  | cons idx rest ih =>
    intro st hmem hst
    have hrest : ∀ x, x ∈ rest → x < elements := fun x hx => hmem x (List.mem_cons_of_mem _ hx)
    unfold randomPass at ih ⊢
    rw [List.foldlM_cons]
    by_cases hin : start ≤ idx ∧ idx < end_
    · simp only [hin, and_self, if_true]
      rw [readElem_one buffer elements idx hb (hmem idx (List.mem_cons_self _ _)) st]
      show List.foldlM _ _ rest = _
      rw [ih _ hrest (Nat.mod_lt _ (by norm_num))]
      have hf : inRange (idx :: rest) start end_ = idx :: inRange rest start end_ := by
        simp [inRange, hin]
      rw [hf]
      simp only [List.length_cons, List.append_assoc, List.singleton_append]
      congr 2
      omega
    · simp only [hin, if_false]
      show List.foldlM _ _ rest = _
      rw [ih _ hrest hst]
      have hf : inRange (idx :: rest) start end_ = inRange rest start end_ := by
        simp only [inRange]
        rw [List.filter_cons_of_neg]
        simpa using hin
      rw [hf]

theorem workerPass_eq (buffer indices : List Nat) (pattern : List Char)
    (elements start end_ stride : Nat) (hb : AllOnes buffer elements)
    (hidx : ∀ idx, idx ∈ indices → idx < elements) (he : end_ ≤ elements) (hs : 0 < stride)
    (hov : end_ + stride ≤ 2 ^ 64) (st : WorkerState) (hst : st.localSum < 2 ^ 64) :
    workerPass buffer indices pattern start end_ stride st
      = .ok ⟨(st.localSum + (passReads pattern indices start end_ stride).length) % 2 ^ 64,
          st.reads ++ passReads pattern indices start end_ stride⟩ := by
  unfold workerPass passReads
  by_cases hp : pattern = "random".toList
  · simp only [hp, if_true]
    exact randomPass_eq buffer elements start end_ hb indices st hidx hst
  · simp only [hp, if_false]
    rw [seqPass_eq buffer elements start end_ stride hb he hs hov st hst, List.length_range']

theorem passLoop_eq (pass : WorkerState → Except Failure WorkerState) (r : List Nat)
    (hpass : ∀ st : WorkerState, st.localSum < 2 ^ 64 →
      pass st = .ok ⟨(st.localSum + r.length) % 2 ^ 64, st.reads ++ r⟩) :
    ∀ (n : Nat) (st : WorkerState), st.localSum < 2 ^ 64 →
      passLoop pass n st
        = .ok ⟨(st.localSum + n * r.length) % 2 ^ 64,
            st.reads ++ (List.replicate n r).flatten⟩ := by
  intro n
  induction n with
  | zero =>
    intro st hst
    have h0 : st.localSum % 2 ^ 64 = st.localSum := Nat.mod_eq_of_lt hst
    simp only [passLoop, Nat.zero_mul, Nat.add_zero, List.replicate_zero, List.flatten_nil,
      List.append_nil, h0]
  | succ n ih =>
    intro st hst
    unfold passLoop
    rw [hpass st hst]
    simp only [Except.bind]
    rw [ih _ (Nat.mod_lt _ (by norm_num))]
    simp only [List.replicate_succ, List.flatten_cons, List.append_assoc]
    congr 2
    rw [Nat.succ_mul]
    omega

theorem boundary_le (elements n t : Nat) : boundary elements n t ≤ elements := by
  have h := boundary_mono elements n (show t ≤ max t n from le_max_left _ _)
  have h2 : boundary elements n (max t n) = elements := by
    unfold boundary
    have : ¬ (max t n < n) := by omega
    simp only [this, if_false]
  omega

theorem worker_eq (buffer indices : List Nat) (c : Config) (elements n t : Nat)
    (hb : AllOnes buffer elements) (hidx : ∀ idx, idx ∈ indices → idx < elements)
    (he : elements < 2 ^ 63) (hs : c.stride_bytes < 2 ^ 64)
    (hth : c.threads = (n : Int)) (hn : 1 ≤ n) (hn2 : n < 2 ^ 31) (ht : t < n) :
    worker buffer indices c elements (t : Int)
      = .ok (workerResult c.iters.toNat
          (passReads c.pattern indices (boundary elements n t) (boundary elements n (t + 1))
            (strideElems c.stride_bytes))) := by
  unfold worker
  rw [hth, workerRange_eq elements n t (by omega) hn hn2 ht]
  simp only [Except.bind]
  have hse := strideElems_le c.stride_bytes hs
  have hbl := boundary_le elements n (t + 1)
  rw [passLoop_eq _ _ (fun st hst => workerPass_eq buffer indices c.pattern elements _ _ _ hb hidx
    hbl (strideElems_pos _) (by omega) st hst) c.iters.toNat ⟨0, []⟩ (by norm_num)]
  simp [workerResult]

theorem mapM_ok {α β : Type} (f : α → Except Failure β) (g : α → β) :
    ∀ l : List α, (∀ x, x ∈ l → f x = .ok (g x)) → l.mapM f = .ok (l.map g) := by
  intro l
  induction l with
  | nil => intro _; rfl
  | cons a rest ih =>
    intro h
    rw [List.mapM_cons, h a (List.mem_cons_self _ _),
      ih (fun x hx => h x (List.mem_cons_of_mem _ hx))]
    rfl

theorem timedWorkers_eq (buffer indices : List Nat) (c : Config) (elements n : Nat)
    (hb : AllOnes buffer elements) (hidx : ∀ idx, idx ∈ indices → idx < elements)
    (he : elements < 2 ^ 63) (hs : c.stride_bytes < 2 ^ 64)
    (hth : c.threads = (n : Int)) (hn : 1 ≤ n) (hn2 : n < 2 ^ 31) :
    timedWorkers buffer indices c elements
      = .ok ((List.range n).map (fun t => workerResult c.iters.toNat
          (passReads c.pattern indices (boundary elements n t) (boundary elements n (t + 1))
            (strideElems c.stride_bytes)))) := by
  unfold timedWorkers
  have h1 : c.threads.toNat = n := by rw [hth]; simp
  rw [h1]
  apply mapM_ok
  intro t ht
  exact worker_eq buffer indices c elements n t hb hidx he hs hth hn hn2 (List.mem_range.mp ht)

/-! ## Allocation -/

theorem allocSize_ge (size_bytes : Nat) (hs : size_bytes < 2 ^ 64) (h1 : 1 ≤ size_bytes)
    (hne : allocSize size_bytes ≠ 0) :
    size_bytes ≤ allocSize size_bytes ∧ 2 ^ 21 ≤ allocSize size_bytes := by
  unfold allocSize huge_page_sz at *
  norm_num at *
  omega

theorem elementCount_pos (size_bytes : Nat) : 1 ≤ elementCount size_bytes := by
  unfold elementCount
  simp only
  split <;> omega

theorem elementCount_eq_max (size_bytes : Nat) :
    elementCount size_bytes = max 1 (size_bytes / 8) := by
  unfold elementCount
  simp only
  split <;> omega

theorem elementCount_lt (size_bytes : Nat) (hs : size_bytes < 2 ^ 64) :
    elementCount size_bytes < 2 ^ 61 := by
  unfold elementCount
  simp only
  split <;> omega

theorem fillLoop_ok (elements : Nat) :
    ∀ (n i : Nat) (mem : List Nat), elements - i < n → elements ≤ mem.length → i ≤ elements →
      (∀ j, j < i → mem[j]? = some 1) →
      ∃ mem2, fillLoop elements n i mem = .ok mem2 ∧ AllOnes mem2 elements
        ∧ mem2.length = mem.length := by
  intro n
  induction n with
  | zero => intro i mem h; omega
  | succ n ih =>
    intro i mem h hlen hi hinv
    unfold fillLoop
    by_cases hlt : i < elements
    · have hil : i < mem.length := by omega
      simp only [hlt, hil, if_true]
      obtain ⟨mem2, h1, h2, h3⟩ := ih (i + 1) (mem.set i 1) (by omega)
        (by rw [List.length_set]; exact hlen) (by omega) (by
          intro j hj
          rw [List.getElem?_set]
          by_cases hji : i = j
          · subst hji
            simp [hil]
          · simp only [hji, if_false]
            exact hinv j (by omega))
      exact ⟨mem2, h1, h2, by rw [h3, List.length_set]⟩
    · simp only [hlt, if_false]
      have hie : i = elements := by omega
      subst hie
      exact ⟨mem, rfl, hinv, rfl⟩

theorem allOnes_replicate (elements : Nat) : AllOnes (List.replicate elements 1) elements := by
  intro idx h
  rw [List.getElem?_replicate]
  simp [h]

theorem initBuffer_ok (env : Env) (c : Config) (hm : env.mmap_ok 0 = false)
    (hs : c.size_bytes < 2 ^ 64) (h1 : 1 ≤ c.size_bytes) :
    ∃ buffer, initBuffer env c (elementCount c.size_bytes) = .ok buffer
      ∧ AllOnes buffer (elementCount c.size_bytes) := by
  unfold initBuffer
  by_cases hh : hugeOk env c = true
  · simp only [hh, if_true]
    have hne : allocSize c.size_bytes ≠ 0 := by
      intro h0
      unfold hugeOk at hh
      rw [h0, hm] at hh
      simp at hh
    obtain ⟨hge, h21⟩ := allocSize_ge c.size_bytes hs h1 hne
    have hel : elementCount c.size_bytes ≤ allocSize c.size_bytes / 8 := by
      rw [elementCount_eq_max]
      have : 1 ≤ allocSize c.size_bytes / 8 := by omega
      have : c.size_bytes / 8 ≤ allocSize c.size_bytes / 8 := Nat.div_le_div_right hge
      omega
    obtain ⟨mem2, h2, h3, _⟩ := fillLoop_ok (elementCount c.size_bytes)
      (elementCount c.size_bytes + 1) 0 (List.replicate (allocSize c.size_bytes / 8) 0)
      (by omega) (by rw [List.length_replicate]; exact hel) (by omega)
      (by intro j hj; omega)
    exact ⟨mem2, h2, h3⟩
  · simp only [hh]
    exact ⟨_, rfl, allOnes_replicate _⟩

/-! ## The run of a valid configuration -/

theorem clamp_threads (c : Config) : (clamp c).threads = c.threads := rfl

theorem clamp_iters (c : Config) : (clamp c).iters = c.iters := rfl

theorem clamp_pattern (c : Config) : (clamp c).pattern = c.pattern := rfl

theorem clamp_use_huge (c : Config) : (clamp c).use_huge = c.use_huge := rfl

theorem clamp_stride (c : Config) :
    (clamp c).stride_bytes = if c.stride_bytes = 0 then 1 else c.stride_bytes := rfl

theorem clamp_size (c : Config) :
    (clamp c).size_bytes
      = if c.size_bytes < (clamp c).stride_bytes then (clamp c).stride_bytes
        else c.size_bytes := rfl

theorem clamp_bounds (c : Config) (hs : c.size_bytes < 2 ^ 64) (ht : c.stride_bytes < 2 ^ 64) :
    1 ≤ (clamp c).stride_bytes ∧ (clamp c).stride_bytes < 2 ^ 64
      ∧ (clamp c).stride_bytes ≤ (clamp c).size_bytes ∧ (clamp c).size_bytes < 2 ^ 64 := by
  rw [clamp_size, clamp_stride]
  split <;> split <;> omega

theorem planIndices_ok (rand : Nat → Nat) (pattern : List Char) (elements stride_bytes : Nat)
    (he : elements < 2 ^ 63) (hs : stride_bytes < 2 ^ 64) :
    ∃ indices, planIndices rand pattern elements stride_bytes = .ok indices
      ∧ (∀ idx, idx ∈ indices → idx < elements)
      ∧ (pattern = "random".toList →
          indices.Perm (multiplesBelow elements (strideElems stride_bytes))) := by
  by_cases hp : pattern = "random".toList
  · obtain ⟨indices, h, p⟩ := planIndices_random_ok rand elements stride_bytes he hs
    refine ⟨indices, by rw [hp]; exact h, ?_, fun _ => p⟩
    intro idx hidx
    exact ((mem_multiplesBelow _ _ _).mp (p.subset hidx)).1
  · refine ⟨[], ?_, ?_, fun h => absurd h hp⟩
    · unfold planIndices
      simp only [hp, if_false]
    · intro idx hidx
      simp at hidx

theorem totalFits_ok (c : Config) (hf : totalFits c = true) :
    ∃ total, totalBytesTouched (clamp c) (elementCount (clamp c).size_bytes) = .ok total := by
  unfold totalFits at hf
  unfold totalBytesTouched
  cases hd : totalBytesDouble (clamp c) (elementCount (clamp c).size_bytes) with
  | error e => rw [hd] at hf; simp at hf
  | ok d =>
    rw [hd] at hf
    have h2 : 0 ≤ d ∧ d < 2 ^ 64 := by simpa using hf
    refine ⟨d.toNat, ?_⟩
    simp only [Except.bind, doubleToU64, h2, and_self, if_true]

theorem run_eq (env : Env) (c : Config) (hv : ValidConfig c) (hm : env.mmap_ok 0 = false)
    (hf : totalFits c = true) :
    ∃ total, totalBytesTouched (clamp c) (elementCount (clamp c).size_bytes) = .ok total ∧
      run env c = .ok {
        size_bytes := (clamp c).size_bytes
        stride_bytes := (clamp c).stride_bytes
        threads := c.threads
        iters := c.iters
        pattern := c.pattern
        total_bytes_touched := total
        huge_pages_used := if hugeOk env (clamp c) then 1 else 0
        warn_fallback := c.use_huge && !hugeOk env (clamp c)
        impossible_value := sinkAfter ((List.range c.threads.toNat).map (fun t =>
          workerResult c.iters.toNat (threadReads env.rand c c.threads.toNat t))) = 42
        sink := sinkAfter ((List.range c.threads.toNat).map (fun t =>
          workerResult c.iters.toNat (threadReads env.rand c c.threads.toNat t)))
        munmap_len := if hugeOk env (clamp c) then some (allocSize (clamp c).size_bytes) else none
        warmup_reads :=
          (workerResult c.iters.toNat (threadReads env.rand c c.threads.toNat 0)).reads
        timed_reads := (List.range c.threads.toNat).map (fun t =>
          (workerResult c.iters.toNat (threadReads env.rand c c.threads.toNat t)).reads) } := by
  obtain ⟨total, htot⟩ := totalFits_ok c hf
  refine ⟨total, htot, ?_⟩
  obtain ⟨hs1, hs2, hz1, hz2⟩ := clamp_bounds c hv.size_lt hv.stride_lt
  have hel := elementCount_lt (clamp c).size_bytes hz2
  obtain ⟨buffer, hbuf, hones⟩ := initBuffer_ok env (clamp c) hm hz2 (by omega)
  obtain ⟨indices, hplan, hidx, _⟩ := planIndices_ok env.rand (clamp c).pattern
    (elementCount (clamp c).size_bytes) (clamp c).stride_bytes (by omega) hs2
  have hio : indicesOf env.rand c = indices := by
    unfold indicesOf
    rw [hplan]
  have hn : c.threads = ((c.threads.toNat : Nat) : Int) := by
    have := hv.threads_pos
    omega
  have hn1 : 1 ≤ c.threads.toNat := by have := hv.threads_pos; omega
  have hn2 : c.threads.toNat < 2 ^ 31 := by have := hv.threads_lt; omega
  have hw := worker_eq buffer indices (clamp c) (elementCount (clamp c).size_bytes)
    c.threads.toNat 0 hones hidx (by omega) hs2 hn hn1 hn2 (by omega)
  have ht := timedWorkers_eq buffer indices (clamp c) (elementCount (clamp c).size_bytes)
    c.threads.toNat hones hidx (by omega) hs2 hn hn1 hn2
  unfold run
  simp only [hbuf, hplan, Except.bind]
  have hw2 : worker buffer indices (clamp c) (elementCount (clamp c).size_bytes) 0
      = .ok (workerResult c.iters.toNat (threadReads env.rand c c.threads.toNat 0)) := by
    have h0 : ((0 : Nat) : Int) = 0 := rfl
    rw [h0] at hw
    rw [hw, threadReads, hio]
    rfl
  rw [hw2]
  simp only [ht, htot]
  unfold threadReads
  simp only [hio, clamp_threads, clamp_iters, clamp_pattern, clamp_use_huge, List.map_map]
  rfl

/-! ## Byte accounting -/

theorem totalBytesTouched_congr (c1 c2 : Config)
    (hsize : c1.size_bytes = c2.size_bytes) (hstride : c1.stride_bytes = c2.stride_bytes)
    (hthreads : c1.threads = c2.threads) (hiters : c1.iters = c2.iters) :
    totalBytesDouble (clamp c1) (elementCount (clamp c1).size_bytes)
      = totalBytesDouble (clamp c2) (elementCount (clamp c2).size_bytes) := by
  have h1 : (clamp c1).stride_bytes = (clamp c2).stride_bytes := by
    rw [clamp_stride, clamp_stride, hstride]
  have h2 : (clamp c1).size_bytes = (clamp c2).size_bytes := by
    rw [clamp_size, clamp_size, h1, hsize]
  unfold totalBytesDouble
  rw [h1, h2, clamp_threads, clamp_threads, clamp_iters, clamp_iters, hthreads, hiters]

/-- C3. Two runs of valid configurations that agree on `size_bytes`,
`stride_bytes`, `threads` and `iters` both complete and emit the same
`total_bytes_touched`, whatever their patterns, their `--huge` flags, the
outcomes of the huge-page mapping and the values returned by `rand()`. -/
theorem C3_total_bytes_independent_of_pattern_and_huge (env1 env2 : Env) (c1 c2 : Config)
    (hv1 : ValidConfig c1) (hv2 : ValidConfig c2) (hf : totalFits c1 = true)
    (hm1 : env1.mmap_ok 0 = false) (hm2 : env2.mmap_ok 0 = false)
    (hsize : c1.size_bytes = c2.size_bytes) (hstride : c1.stride_bytes = c2.stride_bytes)
    (hthreads : c1.threads = c2.threads) (hiters : c1.iters = c2.iters) :
    ∃ o1 o2, run env1 c1 = .ok o1 ∧ run env2 c2 = .ok o2
      ∧ o1.total_bytes_touched = o2.total_bytes_touched := by
  have hcongr := totalBytesTouched_congr c1 c2 hsize hstride hthreads hiters
  have hf2 : totalFits c2 = true := by
    unfold totalFits at hf ⊢
    rw [← hcongr]
    exact hf
  obtain ⟨t1, ht1, hr1⟩ := run_eq env1 c1 hv1 hm1 hf
  obtain ⟨t2, ht2, hr2⟩ := run_eq env2 c2 hv2 hm2 hf2
  refine ⟨_, _, hr1, hr2, ?_⟩
  show t1 = t2
  unfold totalBytesTouched at ht1 ht2
  rw [hcongr, ht2] at ht1
  exact (Except.ok.inj ht1).symm

/-- Witness for C3: 800 bytes, stride 64, four threads, two passes; once
sequential on standard pages, once random with a successful huge-page mapping. -/
theorem C3_total_bytes_witness :
    ∃ o1 o2,
      run ⟨fun _ => false, fun _ => 0⟩ ⟨800, 64, 4, 2, "seq".toList, false⟩ = .ok o1
      ∧ run ⟨fun len => decide (len ≠ 0), fun k => 7 * k + 3⟩
          ⟨800, 64, 4, 2, "random".toList, true⟩ = .ok o2
      ∧ o1.total_bytes_touched = o2.total_bytes_touched :=
  C3_total_bytes_independent_of_pattern_and_huge
    ⟨fun _ => false, fun _ => 0⟩ ⟨fun len => decide (len ≠ 0), fun k => 7 * k + 3⟩
    ⟨800, 64, 4, 2, "seq".toList, false⟩ ⟨800, 64, 4, 2, "random".toList, true⟩
    ⟨by decide, by decide, by decide, by decide, by decide, by decide⟩
    ⟨by decide, by decide, by decide, by decide, by decide, by decide⟩
    (by decide) (by decide) (by decide) rfl rfl rfl rfl

theorem run_ok (env : Env) (c : Config) (hv : ValidConfig c) (hm : env.mmap_ok 0 = false)
    (hf : totalFits c = true) :
    ∃ o, run env c = .ok o ∧
      totalBytesTouched (clamp c) (elementCount (clamp c).size_bytes)
        = .ok o.total_bytes_touched ∧
      o.size_bytes = (clamp c).size_bytes ∧
      o.stride_bytes = (clamp c).stride_bytes ∧
      o.threads = c.threads ∧ o.iters = c.iters ∧ o.pattern = c.pattern ∧
      o.huge_pages_used = (if hugeOk env (clamp c) then 1 else 0) ∧
      o.munmap_len
        = (if hugeOk env (clamp c) then some (allocSize (clamp c).size_bytes) else none) ∧
      o.sink = sinkAfter ((List.range c.threads.toNat).map (fun t =>
          workerResult c.iters.toNat (threadReads env.rand c c.threads.toNat t))) ∧
      o.impossible_value = decide (o.sink = 42) ∧
      o.warmup_reads
        = (workerResult c.iters.toNat (threadReads env.rand c c.threads.toNat 0)).reads ∧
      o.timed_reads = (List.range c.threads.toNat).map (fun t =>
          (workerResult c.iters.toNat (threadReads env.rand c c.threads.toNat t)).reads) := by
  obtain ⟨total, htot, hrun⟩ := run_eq env c hv hm hf
  exact ⟨_, hrun, htot, rfl, rfl, rfl, rfl, rfl, rfl, rfl, rfl, rfl, rfl, rfl⟩

theorem roundNat_of_lt (n : Nat) (h : n < 2 ^ 53) : roundNat n = n := by
  unfold roundNat
  simp only [h, if_true]

theorem roundInt_natCast (n : Nat) (h : n < 2 ^ 53) : roundInt (n : Int) = (n : Int) := by
  unfold roundInt
  have h0 : ¬ ((n : Int) < 0) := by omega
  simp only [h0, if_false, Int.natAbs_ofNat, roundNat_of_lt n h]

theorem mulDouble_natCast (a b : Nat) (h : a * b < 2 ^ 53) :
    mulDouble (a : Int) (b : Int) = ((a * b : Nat) : Int) := by
  unfold mulDouble
  rw [← Nat.cast_mul]
  exact roundInt_natCast _ h

theorem mulDouble_zero_left (b : Int) : mulDouble 0 b = 0 := by
  unfold mulDouble
  rw [Int.zero_mul]
  rfl

theorem mulDouble_zero_right (a : Int) : mulDouble a 0 = 0 := by
  unfold mulDouble
  rw [Int.mul_zero]
  rfl

theorem accounting_exact (q it n sb : Nat) (hn : 1 ≤ n) (hsb : 1 ≤ sb) (hn2 : n < 2 ^ 31)
    (hit : it < 2 ^ 31) (h : n * q * it * sb < 2 ^ 53) :
    mulDouble (mulDouble (mulDouble (roundInt (q : Int)) (roundInt (it : Int)))
      (roundInt (n : Int))) (roundInt (sb : Int)) = ((n * q * it * sb : Nat) : Int) := by
  rw [roundInt_natCast it (by omega), roundInt_natCast n (by omega)]
  rcases Nat.eq_zero_or_pos it with h0 | hpos
  · subst h0
    simp [mulDouble_zero_right, mulDouble_zero_left]
  rcases Nat.eq_zero_or_pos q with h0 | hq
  · subst h0
    have hr : roundInt (0 : Int) = 0 := rfl
    simp only [Nat.cast_zero, hr, mulDouble_zero_left, Nat.mul_zero, Nat.zero_mul]
  have e1 : n * q * it * sb = q * it * n * sb := by ring
  rw [e1] at h ⊢
  have h1 : q * it * n ≤ q * it * n * sb := Nat.le_mul_of_pos_right _ (by omega)
  have h2 : q * it ≤ q * it * n := Nat.le_mul_of_pos_right _ (by omega)
  have h3 : q ≤ q * it := Nat.le_mul_of_pos_right _ hpos
  have h4 : 0 < q * it * n := Nat.mul_pos (Nat.mul_pos hq hpos) (by omega)
  have h5 : sb ≤ q * it * n * sb := Nat.le_mul_of_pos_left _ h4
  rw [roundInt_natCast q (by omega), roundInt_natCast sb (by omega),
    mulDouble_natCast q it (by omega), mulDouble_natCast (q * it) n (by omega),
    mulDouble_natCast (q * it * n) sb h]

theorem natCeil_div_eq (a b : Nat) (hb : 0 < b) :
    ⌈((a : ℕ) : ℚ) / ((b : ℕ) : ℚ)⌉₊ = (a + b - 1) / b := by
  have hbq : (0 : ℚ) < (b : ℚ) := by exact_mod_cast hb
  apply le_antisymm
  · rw [Nat.ceil_le, div_le_iff₀ hbq]
    have h1 : a ≤ (a + b - 1) / b * b := by
      have := Nat.div_add_mod (a + b - 1) b
      have := Nat.mod_lt (a + b - 1) hb
      have : b * ((a + b - 1) / b) = (a + b - 1) / b * b := Nat.mul_comm _ _
      omega
    exact_mod_cast h1
  · have h1 : ((a : ℕ) : ℚ) / ((b : ℕ) : ℚ) ≤ (⌈((a : ℕ) : ℚ) / ((b : ℕ) : ℚ)⌉₊ : ℚ) :=
      Nat.le_ceil _
    rw [div_le_iff₀ hbq] at h1
    have h2 : a ≤ ⌈((a : ℕ) : ℚ) / ((b : ℕ) : ℚ)⌉₊ * b := by exact_mod_cast h1
    have h3 : (a + b - 1) / b < ⌈((a : ℕ) : ℚ) / ((b : ℕ) : ℚ)⌉₊ + 1 := by
      rw [Nat.div_lt_iff_lt_mul hb, Nat.add_mul]
      omega
    omega

theorem totalBytesDouble_exact (c : Config) (hv : ValidConfig c)
    (h : c.threads.toNat
        * ((elementCount (clamp c).size_bytes / c.threads.toNat
            + strideElems (clamp c).stride_bytes - 1) / strideElems (clamp c).stride_bytes)
        * c.iters.toNat * (clamp c).stride_bytes < 2 ^ 53) :
    totalBytesDouble (clamp c) (elementCount (clamp c).size_bytes)
      = .ok ((c.threads.toNat
        * ((elementCount (clamp c).size_bytes / c.threads.toNat
            + strideElems (clamp c).stride_bytes - 1) / strideElems (clamp c).stride_bytes)
        * c.iters.toNat * (clamp c).stride_bytes : Nat) : Int) := by
  obtain ⟨hs1, hs2, hz1, hz2⟩ := clamp_bounds c hv.size_lt hv.stride_lt
  have hel := elementCount_lt (clamp c).size_bytes hz2
  have hse := strideElems_le (clamp c).stride_bytes hs2
  have hsp := strideElems_pos (clamp c).stride_bytes
  have hn : c.threads = ((c.threads.toNat : Nat) : Int) := by
    have := hv.threads_pos
    omega
  have hi : c.iters = ((c.iters.toNat : Nat) : Int) := by
    have := hv.iters_nonneg
    omega
  have hn1 : 1 ≤ c.threads.toNat := by have := hv.threads_pos; omega
  have hn2 : c.threads.toNat < 2 ^ 31 := by have := hv.threads_lt; omega
  have hi2 : c.iters.toNat < 2 ^ 31 := by have := hv.iters_lt; omega
  have hts : toSizeT c.threads = c.threads.toNat := by
    conv_lhs => rw [hn]
    exact toSizeT_natCast _ (by omega)
  have hdiv : elementCount (clamp c).size_bytes / c.threads.toNat
      ≤ elementCount (clamp c).size_bytes := Nat.div_le_self _ _
  unfold totalBytesDouble
  rw [clamp_threads, clamp_iters, hts]
  have hne : ¬ c.threads.toNat = 0 := by omega
  simp only [hne, if_false]
  rw [Nat.mod_eq_of_lt (by omega)]
  have key := accounting_exact
    ((elementCount (clamp c).size_bytes / c.threads.toNat
      + strideElems (clamp c).stride_bytes - 1) / strideElems (clamp c).stride_bytes)
    c.iters.toNat c.threads.toNat (clamp c).stride_bytes hn1 hs1 hn2 hi2 h
  rw [← hn, ← hi] at key
  rw [key]

theorem threadReads_seq_length (rand : Nat → Nat) (c : Config) (n t : Nat)
    (hp : c.pattern ≠ "random".toList) :
    (threadReads rand c n t).length
      = seqCount (boundary (elementCount (clamp c).size_bytes) n t)
          (boundary (elementCount (clamp c).size_bytes) n (t + 1))
          (strideElems (clamp c).stride_bytes) := by
  unfold threadReads passReads
  rw [clamp_pattern]
  simp only [hp, if_false, List.length_range']

theorem bind_ok {ε α β : Type} (x : α) (f : α → Except ε β) :
    (Except.ok x : Except ε α).bind f = f x := rfl

theorem workerResult_reads_one (reads : List Nat) : (workerResult 1 reads).reads = reads := by
  simp [workerResult]

/-- C4. For a valid configuration whose accounting product stays below
`2 ^ 53` (so that the `double` arithmetic is exact) the run completes and the
emitted `total_bytes_touched` is
`thread_count * ceil (range_size_per_thread / stride_elements) * pass_count * stride_bytes`
with `range_size_per_thread = element_count / thread_count` and
`stride_elements = max 1 (stride_bytes / 8)`; the command line
`--size=1M --stride=64 --threads=1 --iters=1 --pattern=seq` gives 131072
elements, 16384 offsets read by the one timed worker and
`total_bytes_touched = 1048576`. -/
theorem C4_total_bytes_formula (env : Env) (c : Config) (hv : ValidConfig c)
    (hm : env.mmap_ok 0 = false)
    (hexact : c.threads.toNat
        * ⌈((elementCount (clamp c).size_bytes / c.threads.toNat : ℕ) : ℚ)
            / ((max 1 ((clamp c).stride_bytes / 8) : ℕ) : ℚ)⌉₊
        * c.iters.toNat * (clamp c).stride_bytes < 2 ^ 53) :
    (∃ o, run env c = .ok o ∧
      o.total_bytes_touched = c.threads.toNat
        * ⌈((elementCount (clamp c).size_bytes / c.threads.toNat : ℕ) : ℚ)
            / ((max 1 ((clamp c).stride_bytes / 8) : ℕ) : ℚ)⌉₊
        * c.iters.toNat * (clamp c).stride_bytes) ∧
    (∃ o, mainProgram env ["--size=1M".toList, "--stride=64".toList, "--threads=1".toList,
        "--iters=1".toList, "--pattern=seq".toList] = .ok o ∧
      elementCount o.size_bytes = 131072 ∧
      o.timed_reads.map List.length = [16384] ∧
      o.total_bytes_touched = 1048576) := by
  constructor
  · rw [← strideElems_eq_max, natCeil_div_eq _ _ (strideElems_pos _)] at hexact ⊢
    have hd := totalBytesDouble_exact c hv hexact
    generalize c.threads.toNat
        * ((elementCount (clamp c).size_bytes / c.threads.toNat
            + strideElems (clamp c).stride_bytes - 1) / strideElems (clamp c).stride_bytes)
        * c.iters.toNat * (clamp c).stride_bytes = P at hexact hd ⊢
    have hP : (0 : Int) ≤ (P : Int) ∧ (P : Int) < 2 ^ 64 := by omega
    have hf : totalFits c = true := by
      unfold totalFits
      rw [hd]
      simp only [decide_eq_true_eq]
      exact hP
    obtain ⟨o, hrun, htot, _⟩ := run_ok env c hv hm hf
    refine ⟨o, hrun, ?_⟩
    have h2 : doubleToU64 (P : Int) = .ok P := by
      unfold doubleToU64
      rw [if_pos hP, Int.toNat_ofNat]
    unfold totalBytesTouched at htot
    rw [hd, bind_ok, h2] at htot
    exact (Except.ok.inj htot).symm
  · have hparse : parseArgs ["--size=1M".toList, "--stride=64".toList, "--threads=1".toList,
        "--iters=1".toList, "--pattern=seq".toList]
        = .ok ⟨1048576, 64, 1, 1, "seq".toList, false⟩ := by decide
    obtain ⟨o, hrun, htot, hsz, _, _, _, _, _, _, _, _, _, htimed⟩ :=
      run_ok env ⟨1048576, 64, 1, 1, "seq".toList, false⟩
        ⟨by decide, by decide, by decide, by decide, by decide, by decide⟩ hm (by decide)
    have hval : totalBytesTouched (clamp ⟨1048576, 64, 1, 1, "seq".toList, false⟩)
        (elementCount (clamp ⟨1048576, 64, 1, 1, "seq".toList, false⟩).size_bytes)
        = .ok 1048576 := by decide
    rw [hval] at htot
    refine ⟨o, ?_, ?_, ?_, ?_⟩
    · unfold mainProgram
      rw [hparse, bind_ok]
      exact hrun
    · rw [hsz]
      decide
    · rw [htimed]
      have h0 : (1 : Int).toNat = 1 := rfl
      have h1 : List.range 1 = [0] := rfl
      have hc : (⟨1048576, 64, 1, 1, "seq".toList, false⟩ : Config).threads = 1 := rfl
      have hi : (⟨1048576, 64, 1, 1, "seq".toList, false⟩ : Config).iters = 1 := rfl
      rw [hc, hi, h0, h1]
      simp only [List.map_cons, List.map_nil, workerResult_reads_one]
      rw [threadReads_seq_length _ _ _ _ (by decide)]
      decide
    · exact (Except.ok.inj htot).symm

/-- Witness for C4: 800 bytes, stride 64, four threads, two passes
(`4 * ceil (25 / 8) * 2 * 64 = 2048`). -/
theorem C4_total_bytes_witness :
    (∃ o, run ⟨fun _ => false, fun _ => 0⟩ ⟨800, 64, 4, 2, "seq".toList, false⟩ = .ok o ∧
      o.total_bytes_touched = (4 : Int).toNat
        * ⌈((elementCount (clamp ⟨800, 64, 4, 2, "seq".toList, false⟩).size_bytes
              / (4 : Int).toNat : ℕ) : ℚ)
            / ((max 1 ((clamp ⟨800, 64, 4, 2, "seq".toList, false⟩).stride_bytes / 8) : ℕ) : ℚ)⌉₊
        * (2 : Int).toNat * (clamp ⟨800, 64, 4, 2, "seq".toList, false⟩).stride_bytes) ∧
    (∃ o, mainProgram ⟨fun _ => false, fun _ => 0⟩
        ["--size=1M".toList, "--stride=64".toList, "--threads=1".toList,
        "--iters=1".toList, "--pattern=seq".toList] = .ok o ∧
      elementCount o.size_bytes = 131072 ∧
      o.timed_reads.map List.length = [16384] ∧
      o.total_bytes_touched = 1048576) :=
  C4_total_bytes_formula ⟨fun _ => false, fun _ => 0⟩ ⟨800, 64, 4, 2, "seq".toList, false⟩
    ⟨by decide, by decide, by decide, by decide, by decide, by decide⟩ rfl
    (by rw [natCeil_div_eq _ _ (by decide)]; decide)

/-! ## Offsets read by one pass: random against sequential -/

theorem lt_iterCount_iff (d step i : Nat) (hs : 0 < step) :
    i < (d + step - 1) / step ↔ step * i < d := by
  constructor
  · intro h
    have h1 : (i + 1) * step ≤ d + step - 1 := by
      rw [← Nat.le_div_iff_mul_le hs]; omega
    have h2 : (i + 1) * step = step * i + step := by ring
    omega
  · intro h
    have h2 : (i + 1) * step ≤ d + step - 1 := by
      have : (i + 1) * step = step * i + step := by ring
      omega
    have := (Nat.le_div_iff_mul_le hs).mpr h2
    omega

theorem mem_seqReads (start end_ step x : Nat) (hs : 0 < step) :
    x ∈ List.range' start (seqCount start end_ step) step
      ↔ start ≤ x ∧ x < end_ ∧ (x - start) % step = 0 := by
  rw [List.mem_range']
  unfold seqCount
  constructor
  · rintro ⟨i, hi, rfl⟩
    rw [lt_iterCount_iff _ _ _ hs] at hi
    refine ⟨by omega, by omega, ?_⟩
    rw [Nat.add_sub_cancel_left]
    exact Nat.mul_mod_right _ _
  · rintro ⟨h1, h2, h3⟩
    have h4 : step * ((x - start) / step) = x - start :=
      Nat.mul_div_cancel' (Nat.dvd_of_mod_eq_zero h3)
    refine ⟨(x - start) / step, ?_, by omega⟩
    rw [lt_iterCount_iff _ _ _ hs]
    omega

theorem mem_inRange (indices : List Nat) (start end_ x : Nat) :
    x ∈ inRange indices start end_ ↔ x ∈ indices ∧ start ≤ x ∧ x < end_ := by
  simp [inRange]

theorem same_offsets_iff (indices : List Nat) (elements start end_ step : Nat) (hs : 0 < step)
    (he : end_ ≤ elements) (hp : indices.Perm (multiplesBelow elements step)) :
    (∀ x, x ∈ inRange indices start end_
        ↔ x ∈ List.range' start (seqCount start end_ step) step)
      ↔ (end_ ≤ start ∨ start % step = 0) := by
  have hmem : ∀ x, x ∈ indices ↔ x < elements ∧ x % step = 0 := fun x => by
    rw [hp.mem_iff, mem_multiplesBelow]
  constructor
  · intro h
    by_cases hlt : end_ ≤ start
    · exact Or.inl hlt
    · right
      have h1 : start ∈ List.range' start (seqCount start end_ step) step := by
        rw [mem_seqReads _ _ _ _ hs]
        refine ⟨le_refl _, by omega, ?_⟩
        simp
      have h2 := (h start).mpr h1
      rw [mem_inRange, hmem] at h2
      exact h2.1.2
  · intro h x
    rw [mem_inRange, hmem, mem_seqReads _ _ _ _ hs]
    rcases h with h | h
    · constructor
      · rintro ⟨_, h1, h2⟩; omega
      · rintro ⟨h1, h2, _⟩; omega
    · have hd : step ∣ start := Nat.dvd_of_mod_eq_zero h
      constructor
      · rintro ⟨⟨_, h0⟩, h1, h2⟩
        refine ⟨h1, h2, ?_⟩
        exact Nat.mod_eq_zero_of_dvd ((Nat.dvd_sub' (Nat.dvd_of_mod_eq_zero h0) hd))
      · rintro ⟨h1, h2, h3⟩
        refine ⟨⟨by omega, ?_⟩, h1, h2⟩
        have h4 : step ∣ x - start + start := Nat.dvd_add (Nat.dvd_of_mod_eq_zero h3) hd
        rw [Nat.sub_add_cancel h1] at h4
        exact Nat.mod_eq_zero_of_dvd h4

theorem indicesOf_perm (rand : Nat → Nat) (c : Config) (hv : ValidConfig c)
    (hp : c.pattern = "random".toList) :
    (indicesOf rand c).Perm (multiplesBelow (elementCount (clamp c).size_bytes)
      (strideElems (clamp c).stride_bytes)) := by
  obtain ⟨_, hs2, _, hz2⟩ := clamp_bounds c hv.size_lt hv.stride_lt
  have hel := elementCount_lt (clamp c).size_bytes hz2
  obtain ⟨indices, hplan, _, hperm⟩ := planIndices_ok rand (clamp c).pattern
    (elementCount (clamp c).size_bytes) (clamp c).stride_bytes (by omega) hs2
  unfold indicesOf
  rw [hplan]
  exact hperm hp

theorem totalFits_pattern (c : Config) (p : List Char) (hf : totalFits c = true) :
    totalFits { c with pattern := p } = true := by
  unfold totalFits at hf ⊢
  rw [totalBytesTouched_congr { c with pattern := p } c rfl rfl rfl rfl]
  exact hf

/-- C5 (as the code has it). For a valid configuration run with one pass, the
sequential run and the random run both complete, and for every thread `t`
the offsets read by the random run are the same set as the offsets read by
the sequential run exactly when the range `[start_t, end_t)` is empty or
`start_t` is a multiple of `stride_elements`. -/
theorem C5_same_offsets_iff_start_aligned (env_s env_r : Env) (c : Config)
    (hv : ValidConfig c) (hit : c.iters = 1) (hf : totalFits c = true)
    (hms : env_s.mmap_ok 0 = false) (hmr : env_r.mmap_ok 0 = false) :
    ∃ o_s o_r,
      run env_s { c with pattern := "seq".toList } = .ok o_s ∧
      run env_r { c with pattern := "random".toList } = .ok o_r ∧
      ∀ t : Nat, t < c.threads.toNat →
        ∃ start end_ reads_s reads_r,
          workerRange (elementCount (clamp c).size_bytes) c.threads (t : Int)
            = .ok (start, end_) ∧
          o_s.timed_reads[t]? = some reads_s ∧
          o_r.timed_reads[t]? = some reads_r ∧
          ((∀ x, x ∈ reads_r ↔ x ∈ reads_s)
            ↔ (end_ ≤ start ∨ start % strideElems (clamp c).stride_bytes = 0)) := by
  have hvs : ValidConfig { c with pattern := "seq".toList } :=
    ⟨hv.size_lt, hv.stride_lt, hv.threads_pos, hv.threads_lt, hv.iters_nonneg, hv.iters_lt⟩
  have hvr : ValidConfig { c with pattern := "random".toList } :=
    ⟨hv.size_lt, hv.stride_lt, hv.threads_pos, hv.threads_lt, hv.iters_nonneg, hv.iters_lt⟩
  obtain ⟨o_s, hrs, _, _, _, _, _, _, _, _, _, _, _, hts⟩ :=
    run_ok env_s _ hvs hms (totalFits_pattern c _ hf)
  obtain ⟨o_r, hrr, _, _, _, _, _, _, _, _, _, _, _, htr⟩ :=
    run_ok env_r _ hvr hmr (totalFits_pattern c _ hf)
  refine ⟨o_s, o_r, hrs, hrr, ?_⟩
  intro t ht
  obtain ⟨_, hs2, _, hz2⟩ := clamp_bounds c hv.size_lt hv.stride_lt
  have hel := elementCount_lt (clamp c).size_bytes hz2
  have hn : c.threads = ((c.threads.toNat : Nat) : Int) := by
    have := hv.threads_pos
    omega
  have hn1 : 1 ≤ c.threads.toNat := by have := hv.threads_pos; omega
  have hn2 : c.threads.toNat < 2 ^ 31 := by have := hv.threads_lt; omega
  have hi1 : c.iters.toNat = 1 := by rw [hit]; rfl
  have hwr := workerRange_eq (elementCount (clamp c).size_bytes) c.threads.toNat t
    (by omega) hn1 hn2 ht
  rw [← hn] at hwr
  refine ⟨_, _,
    (workerResult c.iters.toNat
      (threadReads env_s.rand { c with pattern := "seq".toList } c.threads.toNat t)).reads,
    (workerResult c.iters.toNat
      (threadReads env_r.rand { c with pattern := "random".toList } c.threads.toNat t)).reads,
    hwr, ?_, ?_, ?_⟩
  · rw [hts, List.getElem?_map, List.getElem?_range ht]
    rfl
  · rw [htr, List.getElem?_map, List.getElem?_range ht]
    rfl
  · rw [hi1, workerResult_reads_one, workerResult_reads_one]
    have hperm := indicesOf_perm env_r.rand { c with pattern := "random".toList } hvr rfl
    exact same_offsets_iff _ _ _ _ _ (strideElems_pos _) (boundary_le _ _ _) hperm

/-- Witness for C5: 800 bytes, stride 64, four threads, one pass. -/
theorem C5_same_offsets_witness :
    ∃ o_s o_r,
      run ⟨fun _ => false, fun _ => 0⟩
        { (⟨800, 64, 4, 1, "seq".toList, false⟩ : Config) with pattern := "seq".toList }
        = .ok o_s ∧
      run ⟨fun _ => false, fun k => 7 * k + 3⟩
        { (⟨800, 64, 4, 1, "seq".toList, false⟩ : Config) with pattern := "random".toList }
        = .ok o_r ∧
      ∀ t : Nat, t < (4 : Int).toNat →
        ∃ start end_ reads_s reads_r,
          workerRange (elementCount (clamp ⟨800, 64, 4, 1, "seq".toList, false⟩).size_bytes)
            4 (t : Int) = .ok (start, end_) ∧
          o_s.timed_reads[t]? = some reads_s ∧
          o_r.timed_reads[t]? = some reads_r ∧
          ((∀ x, x ∈ reads_r ↔ x ∈ reads_s)
            ↔ (end_ ≤ start
              ∨ start % strideElems (clamp ⟨800, 64, 4, 1, "seq".toList, false⟩).stride_bytes
                = 0)) :=
  C5_same_offsets_iff_start_aligned ⟨fun _ => false, fun _ => 0⟩
    ⟨fun _ => false, fun k => 7 * k + 3⟩ ⟨800, 64, 4, 1, "seq".toList, false⟩
    ⟨by decide, by decide, by decide, by decide, by decide, by decide⟩ rfl (by decide) rfl rfl

/-- C5 as stated fails: with 100 elements, a 64-byte stride and four threads,
thread 1 reads the offsets 25, 33, 41, 49 in a sequential pass and the
offsets 40, 32, 48 in a random pass. -/
theorem C5_counterexample :
    (run ⟨fun _ => false, fun k => 7 * k + 3⟩ ⟨800, 64, 4, 1, "seq".toList, false⟩).map
        (fun o => o.timed_reads[1]?) = .ok (some [25, 33, 41, 49]) ∧
    (run ⟨fun _ => false, fun k => 7 * k + 3⟩ ⟨800, 64, 4, 1, "random".toList, false⟩).map
        (fun o => o.timed_reads[1]?) = .ok (some [40, 32, 48]) ∧
    ¬ (∀ x : Nat, x ∈ [40, 32, 48] ↔ x ∈ [25, 33, 41, 49]) := by
  refine ⟨by decide, by decide, ?_⟩
  intro h
  exact absurd ((h 25).mpr (by decide)) (by decide)

/-! ## The size parser -/

theorem isDigit_bounds (c : Char) (h : isDigit c = true) : 48 ≤ c.toNat ∧ c.toNat ≤ 57 := by
  simpa [isDigit] using h

theorem isDigit_ne (c x : Char) (h : isDigit c = true) (hx : isDigit x = false) : c ≠ x := by
  intro hc
  rw [hc, hx] at h
  exact absurd h (by decide)

theorem isSpace_of_isDigit (c : Char) (h : isDigit c = true) : isSpace c = false := by
  have hb := isDigit_bounds c h
  unfold isSpace
  simp
  omega

theorem suffixMult_of_isDigit (c : Char) (h : isDigit c = true) : suffixMult c = none := by
  unfold suffixMult
  have h1 := isDigit_ne c 'K' h (by decide)
  have h2 := isDigit_ne c 'k' h (by decide)
  have h3 := isDigit_ne c 'M' h (by decide)
  have h4 := isDigit_ne c 'm' h (by decide)
  have h5 := isDigit_ne c 'G' h (by decide)
  have h6 := isDigit_ne c 'g' h (by decide)
  simp [h1, h2, h3, h4, h5, h6]

theorem splitSign_cons (c : Char) (r : List Char) (h1 : c ≠ '-') (h2 : c ≠ '+') :
    splitSign (c :: r) = (false, c :: r) := by
  unfold splitSign
  split
  · rename_i heq
    exact absurd (List.cons.inj heq).1 h1
  · rename_i heq
    exact absurd (List.cons.inj heq).1 h2
  · rfl

theorem stoull_leading_digits (d u : List Char) (hne : d ≠ [])
    (hd : ∀ c, c ∈ d → isDigit c = true) (hu : ∀ c, u.head? = some c → isDigit c = false)
    (hv : digitsValue d < 2 ^ 64) :
    stoull (d ++ u) = .ok (digitsValue d) := by
  obtain ⟨c0, r, rfl⟩ := List.exists_cons_of_ne_nil hne
  have h0 : isDigit c0 = true := hd c0 (List.mem_cons_self _ _)
  have hsp : (c0 :: r ++ u).dropWhile isSpace = c0 :: r ++ u := by
    rw [List.cons_append, List.dropWhile_cons_of_neg]
    rw [isSpace_of_isDigit c0 h0]
    simp
  have hsg : splitSign (c0 :: r ++ u) = (false, c0 :: r ++ u) :=
    splitSign_cons c0 _ (isDigit_ne c0 '-' h0 (by decide)) (isDigit_ne c0 '+' h0 (by decide))
  have htu : u.takeWhile isDigit = [] := by
    cases u with
    | nil => rfl
    | cons x xs =>
      rw [List.takeWhile_cons_of_neg]
      rw [hu x rfl]
      simp
  have htw : (c0 :: r ++ u).takeWhile isDigit = c0 :: r := by
    rw [List.takeWhile_append_of_pos hd, htu, List.append_nil]
  unfold stoull
  simp only [hsp, hsg, htw]
  have hnl : ¬ (c0 :: r = []) := by simp
  have hlt : ¬ (2 ^ 64 ≤ digitsValue (c0 :: r)) := by omega
  simp only [hnl, hlt, if_false]
  rfl

theorem stoull_no_digit (p : List Char)
    (h : ∀ c, p.head? = some c → isDigit c = false ∧ isSpace c = false ∧ c ≠ '-' ∧ c ≠ '+') :
    stoull p = .error .invalid_argument := by
  cases p with
  | nil => rfl
  | cons c r =>
    obtain ⟨h1, h2, h3, h4⟩ := h c rfl
    have hsp : (c :: r).dropWhile isSpace = c :: r := by
      rw [List.dropWhile_cons_of_neg]
      rw [h2]
      simp
    have htw : (c :: r).takeWhile isDigit = [] := by
      rw [List.takeWhile_cons_of_neg]
      rw [h1]
      simp
    unfold stoull
    simp only [hsp, splitSign_cons c r h3 h4, htw, if_true]

theorem parse_size_no_suffix (s : List Char) (c : Char) (hl : s.getLast? = some c)
    (hm : suffixMult c = none) :
    parse_size s = (stoull s).map (fun v => (v * 1) % 2 ^ 64) := by
  unfold parse_size
  rw [hl]
  simp only [hm]

theorem parse_size_suffix (p : List Char) (k : Char) (m : Nat) (hm : suffixMult k = some m) :
    parse_size (p ++ [k]) = (stoull p).map (fun v => (v * m) % 2 ^ 64) := by
  unfold parse_size
  rw [List.getLast?_concat]
  simp only [hm, List.dropLast_concat]

theorem map_ok {ε α β : Type} (f : α → β) (x : α) :
    (Except.ok x : Except ε α).map f = .ok (f x) := rfl

theorem digitsValue_concat (d : List Char) (c : Char) :
    digitsValue (d ++ [c]) = 10 * digitsValue d + (c.toNat - 48) := by
  unfold digitsValue
  rw [List.foldl_append]
  rfl

theorem digitsValue_eq_ofDigits (d : List Char) :
    digitsValue d = Nat.ofDigits 10 ((d.map (fun c => c.toNat - '0'.toNat)).reverse) := by
  induction d using List.reverseRecOn with
  | nil => rfl
  | append_singleton d c ih =>
    rw [digitsValue_concat, List.map_append, List.reverse_append, ih]
    simp only [List.map_cons, List.map_nil, List.reverse_cons, List.reverse_nil,
      List.nil_append, List.singleton_append, Nat.ofDigits_cons]
    have h48 : '0'.toNat = 48 := rfl
    rw [h48]
    ring

theorem parse_size_leading_digits (d u : List Char) (hne : d ≠ [])
    (hd : ∀ c, c ∈ d → isDigit c = true) (hu : ∀ c, u.head? = some c → isDigit c = false) :
    (∀ c, (d ++ u).getLast? = some c → suffixMult c = none → digitsValue d < 2 ^ 64 →
      parse_size (d ++ u) = .ok (digitsValue d)) ∧
    (∀ k m, suffixMult k = some m → digitsValue d * m < 2 ^ 64 →
      parse_size (d ++ u ++ [k]) = .ok (digitsValue d * m)) := by
  constructor
  · intro c hl hm hv
    rw [parse_size_no_suffix _ c hl hm, stoull_leading_digits d u hne hd hu hv, map_ok]
    simp only [Nat.mul_one]
    rw [Nat.mod_eq_of_lt hv]
  · intro k m hm hv
    have hm1 : 1 ≤ m := by
      unfold suffixMult at hm
      split at hm
      · cases hm; decide
      · split at hm
        · cases hm; decide
        · split at hm
          · cases hm; decide
          · cases hm
    have hv1 : digitsValue d < 2 ^ 64 :=
      lt_of_le_of_lt (Nat.le_mul_of_pos_right _ hm1) hv
    rw [parse_size_suffix _ k m hm, stoull_leading_digits d u hne hd hu hv1, map_ok]
    exact congrArg Except.ok (Nat.mod_eq_of_lt hv)

/-- C6. For a non-empty string `d` of decimal digits, `parse_size d` is the
decimal value of `d`, and `parse_size` of `d` followed by one of `K k`, `M m`,
`G g` is that value times `1024`, `1024 ^ 2`, `1024 ^ 3`, whenever the product
is below `2 ^ 64`; the value of `d` is its base-10 value. -/
theorem C6_parse_size_value (d : List Char) (hne : d ≠ [])
    (hd : ∀ c, c ∈ d → isDigit c = true) :
    digitsValue d = Nat.ofDigits 10 ((d.map (fun c => c.toNat - '0'.toNat)).reverse) ∧
    (digitsValue d * 1 < 2 ^ 64 → parse_size d = .ok (digitsValue d * 1)) ∧
    (∀ k m, (k, m) ∈ [('K', 1024), ('k', 1024), ('M', 1024 ^ 2), ('m', 1024 ^ 2),
        ('G', 1024 ^ 3), ('g', 1024 ^ 3)] →
      digitsValue d * m < 2 ^ 64 → parse_size (d ++ [k]) = .ok (digitsValue d * m)) := by
  obtain ⟨h1, h2⟩ := parse_size_leading_digits d [] hne hd (by intro c hc; cases hc)
  refine ⟨digitsValue_eq_ofDigits d, ?_, ?_⟩
  · intro hv
    rw [Nat.mul_one] at hv ⊢
    rw [List.append_nil] at h1
    obtain ⟨c, hc⟩ : ∃ c, d.getLast? = some c := by
      cases hl : d.getLast? with
      | none => exact absurd (List.getLast?_eq_none_iff.mp hl) hne
      | some c => exact ⟨c, rfl⟩
    exact h1 c hc (suffixMult_of_isDigit c (hd c (List.mem_of_mem_getLast? hc))) hv
  · intro k m hkm hv
    rw [List.append_nil] at h2
    have hs : suffixMult k = some m := by
      simp only [List.mem_cons, Prod.mk.injEq, List.mem_singleton, List.mem_nil_iff,
        or_false] at hkm
      rcases hkm with ⟨rfl, rfl⟩ | ⟨rfl, rfl⟩ | ⟨rfl, rfl⟩ | ⟨rfl, rfl⟩ | ⟨rfl, rfl⟩ | ⟨rfl, rfl⟩ <;>
        rfl
    exact h2 k m hs hv

/-- Witness for C6: the digit string `12`. -/
theorem C6_parse_size_witness :
    digitsValue ['1', '2']
      = Nat.ofDigits 10 ((['1', '2'].map (fun c => c.toNat - '0'.toNat)).reverse) ∧
    (digitsValue ['1', '2'] * 1 < 2 ^ 64 →
      parse_size ['1', '2'] = .ok (digitsValue ['1', '2'] * 1)) ∧
    (∀ k m, (k, m) ∈ [('K', 1024), ('k', 1024), ('M', 1024 ^ 2), ('m', 1024 ^ 2),
        ('G', 1024 ^ 3), ('g', 1024 ^ 3)] →
      digitsValue ['1', '2'] * m < 2 ^ 64 →
      parse_size (['1', '2'] ++ [k]) = .ok (digitsValue ['1', '2'] * m)) :=
  C6_parse_size_value ['1', '2'] (by decide) (by decide)

/-- C7 as stated fails: `parse_size` of the empty string returns the byte
count `0`, and a run started with `--size=` (or with `--stride=`) completes
with a result line. -/
theorem C7_counterexample :
    parse_size [] = .ok 0 ∧
    (mainProgram ⟨fun _ => false, fun _ => 0⟩ ["--size=".toList]).map
        (fun o => (o.size_bytes, o.stride_bytes, o.total_bytes_touched))
      = .ok (64, 64, 256) ∧
    (mainProgram ⟨fun _ => false, fun _ => 0⟩ ["--size=64".toList, "--stride=".toList]).map
        (fun o => (o.size_bytes, o.stride_bytes, o.total_bytes_touched))
      = .ok (64, 1, 32) := by
  refine ⟨by decide, by decide, by decide⟩

/-- C7 (as the code has it). `parse_size` of the empty string returns `0`
without an error; `--size=` stores `0` in `size_bytes`, which the clamping
raises to the stride, and `--stride=` stores `0` in `stride_bytes`, which the
clamping raises to `1`. -/
theorem C7_parse_size_empty_returns_zero (c : Config) :
    parse_size [] = .ok 0 ∧
    argStep c "--size=".toList = .ok { c with size_bytes := 0 } ∧
    argStep c "--stride=".toList = .ok { c with stride_bytes := 0 } ∧
    (clamp { c with size_bytes := 0 }).size_bytes = (clamp c).stride_bytes ∧
    (clamp { c with stride_bytes := 0 }).stride_bytes = 1 := by
  refine ⟨rfl, rfl, rfl, ?_, rfl⟩
  rw [clamp_size]
  have h1 : (clamp { c with size_bytes := 0 }).stride_bytes = (clamp c).stride_bytes := rfl
  have h2 := (clamp_stride c)
  rw [h1]
  have h3 : 0 < (clamp c).stride_bytes := by
    rw [h2]; split <;> omega
  simp only [h3, if_true]

theorem map_error {ε α β : Type} (f : α → β) (e : ε) :
    (Except.error e : Except ε α).map f = .error e := rfl

theorem parse_size_no_leading_digit (s : List Char) (hne : s ≠ [])
    (h : ∀ c, (digitPortion s).head? = some c →
      isDigit c = false ∧ isSpace c = false ∧ c ≠ '-' ∧ c ≠ '+') :
    parse_size s = .error .invalid_argument := by
  obtain ⟨c, hc⟩ : ∃ c, s.getLast? = some c := by
    cases hl : s.getLast? with
    | none => exact absurd (List.getLast?_eq_none_iff.mp hl) hne
    | some c => exact ⟨c, rfl⟩
  cases hm : suffixMult c with
  | none =>
    have hp : digitPortion s = s := by
      unfold digitPortion
      rw [hc]
      simp only [hm, Option.isSome_none, Bool.false_eq_true, if_false]
    rw [hp] at h
    rw [parse_size_no_suffix s c hc hm, stoull_no_digit s h, map_error]
  | some m =>
    have hp : digitPortion s = s.dropLast := by
      unfold digitPortion
      rw [hc]
      simp only [hm, Option.isSome_some, if_true]
    rw [hp] at h
    have hs : s.dropLast ++ [c] = s := List.dropLast_append_getLast? c hc
    rw [← hs, parse_size_suffix _ c m hm, stoull_no_digit _ h, map_error]

theorem stoull_eq (p : List Char) :
    stoull p
      = if leadingDigits p = [] then .error .invalid_argument
        else if 2 ^ 64 ≤ digitsValue (leadingDigits p) then .error .out_of_range
        else .ok (if hasMinus p then (2 ^ 64 - digitsValue (leadingDigits p)) % 2 ^ 64
          else digitsValue (leadingDigits p)) := rfl

theorem parse_size_eq (s : List Char) (hne : s ≠ []) :
    parse_size s = (stoull (digitPortion s)).map (fun v => (v * multiplierOf s) % 2 ^ 64) := by
  obtain ⟨c, hc⟩ : ∃ c, s.getLast? = some c := by
    cases hl : s.getLast? with
    | none => exact absurd (List.getLast?_eq_none_iff.mp hl) hne
    | some c => exact ⟨c, rfl⟩
  cases hm : suffixMult c with
  | none =>
    have hp : digitPortion s = s := by
      unfold digitPortion
      rw [hc]
      simp only [hm, Option.isSome_none, Bool.false_eq_true, if_false]
    have hk : multiplierOf s = 1 := by
      unfold multiplierOf
      rw [hc]
      show (suffixMult c).getD 1 = _
      rw [hm]
      rfl
    rw [hp, hk, parse_size_no_suffix s c hc hm]
  | some m =>
    have hp : digitPortion s = s.dropLast := by
      unfold digitPortion
      rw [hc]
      simp only [hm, Option.isSome_some, if_true]
    have hk : multiplierOf s = m := by
      unfold multiplierOf
      rw [hc]
      show (suffixMult c).getD 1 = _
      rw [hm]
      rfl
    have hs : s.dropLast ++ [c] = s := List.dropLast_append_getLast? c hc
    rw [hp, hk]
    conv_lhs => rw [← hs]
    exact parse_size_suffix _ c m hm

theorem parse_size_cases (s : List Char) (hne : s ≠ []) :
    (leadingDigits (digitPortion s) = [] → parse_size s = .error .invalid_argument) ∧
    (leadingDigits (digitPortion s) ≠ [] →
      2 ^ 64 ≤ digitsValue (leadingDigits (digitPortion s)) →
      parse_size s = .error .out_of_range) ∧
    (leadingDigits (digitPortion s) ≠ [] →
      digitsValue (leadingDigits (digitPortion s)) < 2 ^ 64 →
      parse_size s
        = .ok (((if hasMinus (digitPortion s)
              then (2 ^ 64 - digitsValue (leadingDigits (digitPortion s))) % 2 ^ 64
              else digitsValue (leadingDigits (digitPortion s))) * multiplierOf s) % 2 ^ 64)) := by
  rw [parse_size_eq s hne, stoull_eq]
  refine ⟨?_, ?_, ?_⟩
  · intro h
    rw [if_pos h]
    rfl
  · intro h1 h2
    rw [if_neg h1, if_pos h2]
    rfl
  · intro h1 h2
    rw [if_neg h1, if_neg (by omega)]
    rfl

/-- C8 as stated fails: `12x`, `1.5M`, `12abK`, ` 12` (a leading blank),
`+12K` and `-1` have a digit portion that is not made of digits only, and
`parse_size` returns a byte count for each. -/
theorem C8_counterexample :
    parse_size "12x".toList = .ok 12 ∧
    parse_size "1.5M".toList = .ok 1048576 ∧
    parse_size "12abK".toList = .ok 12288 ∧
    parse_size " 12".toList = .ok 12 ∧
    parse_size "+12K".toList = .ok 12288 ∧
    parse_size "-1".toList = .ok (2 ^ 64 - 1) := by
  refine ⟨by decide, by decide, by decide, by decide, by decide, by decide⟩

/-- C8 (as the code has it). For every non-empty string, `parse_size` reports
a parse error exactly when the digit portion, once its leading white space and
at most one sign are skipped, does not start with a decimal digit
(`std::invalid_argument`: `abc`, `K`, `-x`, `-`, a single blank, `-K`) or
starts with digits whose value is `2 ^ 64` or more (`std::out_of_range`).
Otherwise it returns a byte count: the characters after the leading digits are
ignored, a minus sign negates modulo `2 ^ 64`, and the multiplier of the suffix
is applied modulo `2 ^ 64` (`12x`, `1.5M`, `12abK` give 12, 1048576, 12288). -/
theorem C8_parse_size_error_iff_no_leading_digits :
    (∀ s : List Char, s ≠ [] →
      (leadingDigits (digitPortion s) = [] → parse_size s = .error .invalid_argument) ∧
      (leadingDigits (digitPortion s) ≠ [] →
        2 ^ 64 ≤ digitsValue (leadingDigits (digitPortion s)) →
        parse_size s = .error .out_of_range) ∧
      (leadingDigits (digitPortion s) ≠ [] →
        digitsValue (leadingDigits (digitPortion s)) < 2 ^ 64 →
        parse_size s
          = .ok (((if hasMinus (digitPortion s)
                then (2 ^ 64 - digitsValue (leadingDigits (digitPortion s))) % 2 ^ 64
                else digitsValue (leadingDigits (digitPortion s))) * multiplierOf s)
              % 2 ^ 64)) ∧
      ((∃ e, parse_size s = .error e)
        ↔ (leadingDigits (digitPortion s) = []
          ∨ 2 ^ 64 ≤ digitsValue (leadingDigits (digitPortion s))))) ∧
    (∀ s : List Char, s ≠ [] →
      (∀ c, (digitPortion s).head? = some c →
        isDigit c = false ∧ isSpace c = false ∧ c ≠ '-' ∧ c ≠ '+') →
      parse_size s = .error .invalid_argument) ∧
    (∀ d u : List Char, d ≠ [] → (∀ c, c ∈ d → isDigit c = true) →
      (∀ c, u.head? = some c → isDigit c = false) →
      (∀ c, (d ++ u).getLast? = some c → suffixMult c = none → digitsValue d < 2 ^ 64 →
        parse_size (d ++ u) = .ok (digitsValue d)) ∧
      (∀ k m, suffixMult k = some m → digitsValue d * m < 2 ^ 64 →
        parse_size (d ++ u ++ [k]) = .ok (digitsValue d * m))) ∧
    parse_size "abc".toList = .error .invalid_argument ∧
    parse_size "K".toList = .error .invalid_argument ∧
    parse_size "-x".toList = .error .invalid_argument ∧
    parse_size "-".toList = .error .invalid_argument ∧
    parse_size " ".toList = .error .invalid_argument ∧
    parse_size "-K".toList = .error .invalid_argument ∧
    parse_size "12x".toList = .ok 12 ∧
    parse_size "1.5M".toList = .ok (1 * 1024 ^ 2) ∧
    parse_size "12abK".toList = .ok (12 * 1024) := by
  refine ⟨?_, parse_size_no_leading_digit, parse_size_leading_digits, by decide, by decide,
    by decide, by decide, by decide, by decide, by decide, by decide, by decide⟩
  intro s hne
  obtain ⟨h1, h2, h3⟩ := parse_size_cases s hne
  refine ⟨h1, h2, h3, ?_⟩
  constructor
  · rintro ⟨e, he⟩
    by_contra hcon
    rw [not_or] at hcon
    have := h3 hcon.1 (by omega)
    rw [this] at he
    cases he
  · rintro (h | h)
    · exact ⟨_, h1 h⟩
    · by_cases hd : leadingDigits (digitPortion s) = []
      · exact ⟨_, h1 hd⟩
      · exact ⟨_, h2 hd h⟩

/-! ## Clamping of the configuration -/

/-- C9. After the clamping `stride_bytes >= 1`, `size_bytes >= stride_bytes`
and `element_count = max 1 (size_bytes / 8)`; a parsed `size_bytes` below the
clamped stride becomes exactly that stride, and a configuration that already
has `1 <= stride_bytes <= size_bytes` is left unchanged. -/
theorem C9_clamp_invariants (c : Config) :
    1 ≤ (clamp c).stride_bytes ∧
    (clamp c).stride_bytes ≤ (clamp c).size_bytes ∧
    elementCount (clamp c).size_bytes = max 1 ((clamp c).size_bytes / 8) ∧
    1 ≤ elementCount (clamp c).size_bytes ∧
    (c.size_bytes < (clamp c).stride_bytes → (clamp c).size_bytes = (clamp c).stride_bytes) ∧
    (1 ≤ c.stride_bytes → c.stride_bytes ≤ c.size_bytes → clamp c = c) ∧
    (1 ≤ c.stride_bytes → (clamp c).stride_bytes = c.stride_bytes) ∧
    ((clamp c).stride_bytes ≤ c.size_bytes → (clamp c).size_bytes = c.size_bytes) ∧
    (clamp c).threads = c.threads ∧ (clamp c).iters = c.iters ∧
    (clamp c).pattern = c.pattern ∧ (clamp c).use_huge = c.use_huge := by
  have hst := clamp_stride c
  have hsz := clamp_size c
  refine ⟨?_, ?_, elementCount_eq_max _, elementCount_pos _, ?_, ?_, ?_, ?_, rfl, rfl, rfl, rfl⟩
  · rw [hst]; split <;> omega
  · rw [hsz]; split <;> omega
  · intro h
    rw [hsz]
    simp only [h, if_true]
  · intro h1 h2
    have e1 : (clamp c).stride_bytes = c.stride_bytes := by
      rw [hst]; split <;> omega
    have e2 : (clamp c).size_bytes = c.size_bytes := by
      rw [hsz, e1]; split <;> omega
    cases c
    simp only [clamp] at e1 e2 ⊢
    simp only [Config.mk.injEq, and_true, true_and]
    exact ⟨e2, e1⟩
  · intro h1
    rw [hst]; split <;> omega
  · intro h1
    rw [hsz]; split <;> omega

/-- Witness for C9: a stride of `0` with a size of `0` is clamped to `1`
and `1`; a size of 1024 with a stride of 64 is unchanged. -/
theorem C9_clamp_witness :
    clamp ⟨0, 0, 1, 4, "seq".toList, false⟩ = ⟨1, 1, 1, 4, "seq".toList, false⟩ ∧
    clamp ⟨1024, 64, 1, 4, "seq".toList, false⟩ = ⟨1024, 64, 1, 4, "seq".toList, false⟩ :=
  ⟨by decide,
    (C9_clamp_invariants ⟨1024, 64, 1, 4, "seq".toList, false⟩).2.2.2.2.2.1
      (by decide) (by decide)⟩

/-! ## The thread count -/

/-- C10 fails on the code. The argument loop accepts `--threads=0` and
`--threads=-1` and no clamping follows: with `0` the first division
`elements / threads` of the warm-up worker divides by zero, with `-1` the
run completes with `threads = -1` and no timed worker. -/
theorem C10_threads_not_clamped (env : Env) :
    parseArgs ["--threads=0".toList] = .ok { defaultConfig with threads := 0 } ∧
    mainProgram env ["--threads=0".toList] = .error .division_by_zero ∧
    workerRange (elementCount (clamp { defaultConfig with threads := 0 }).size_bytes) 0 0
      = .error .division_by_zero ∧
    totalBytesDouble (clamp { defaultConfig with threads := 0 })
        (elementCount (clamp { defaultConfig with threads := 0 }).size_bytes)
      = .error .division_by_zero ∧
    (mainProgram ⟨fun _ => false, fun _ => 0⟩ ["--size=64".toList, "--threads=-1".toList]).map
        (fun o => (o.threads, o.timed_reads, o.total_bytes_touched))
      = .ok (-1, [], 0) := by
  refine ⟨by decide, ?_, by decide, by decide, by decide⟩
  rfl

/-! ## The aggregate and the canary -/

/-- C11 fails on the code. With `--size=336 --stride=8 --iters=1` (one thread,
sequential) the buffer has 42 elements, the timed worker reads each once, the
aggregate is 42 and the `Impossible value` diagnostic is emitted. -/
theorem C11_canary_value_observed (env : Env) :
    (mainProgram env ["--size=336".toList, "--stride=8".toList, "--iters=1".toList]).map
        (fun o => (o.threads, o.iters, o.pattern, o.timed_reads.map List.length, o.sink,
          o.impossible_value))
      = .ok (1, 1, "seq".toList, [42], 42, true) := by
  rfl

/-! ## Huge pages: flag, warning and release -/

theorem run_flags (env : Env) (c : Config) (hv : ValidConfig c) (hm : env.mmap_ok 0 = false)
    (hf : totalFits c = true) :
    ∃ o, run env c = .ok o ∧
      o.huge_pages_used = (if hugeOk env (clamp c) then 1 else 0) ∧
      o.munmap_len
        = (if hugeOk env (clamp c) then some (allocSize (clamp c).size_bytes) else none) ∧
      o.warn_fallback = (c.use_huge && !hugeOk env (clamp c)) := by
  obtain ⟨total, _, hrun⟩ := run_eq env c hv hm hf
  exact ⟨_, hrun, rfl, rfl, rfl⟩

theorem hugeOk_clamp (env : Env) (c : Config) :
    hugeOk env (clamp c) = (c.use_huge && env.mmap_ok (allocSize (clamp c).size_bytes)) := rfl

/-- C12. For a valid run, `huge_pages_used` is 1 exactly when `--huge` was
given and the huge-page `mmap` succeeded, and `munmap` is called exactly when
the flag is 1; without `--huge`, or after a failed mapping, the buffer is the
standard allocation of ones, the flag is 0 and there is no `munmap`; the
fall-back warning is emitted exactly when `--huge` was given and the mapping
failed. -/
theorem C12_huge_flag_and_release (env : Env) (c : Config) (hv : ValidConfig c)
    (hm : env.mmap_ok 0 = false) (hf : totalFits c = true) :
    ∃ o, run env c = .ok o ∧
      (o.huge_pages_used = 1
        ↔ (c.use_huge = true ∧ env.mmap_ok (allocSize (clamp c).size_bytes) = true)) ∧
      (o.huge_pages_used = 0 ∨ o.huge_pages_used = 1) ∧
      (o.munmap_len.isSome = true ↔ o.huge_pages_used = 1) ∧
      ((c.use_huge = false ∨ env.mmap_ok (allocSize (clamp c).size_bytes) = false) →
        o.huge_pages_used = 0 ∧ o.munmap_len = none ∧
        initBuffer env (clamp c) (elementCount (clamp c).size_bytes)
          = .ok (List.replicate (elementCount (clamp c).size_bytes) 1)) ∧
      (o.warn_fallback = true
        ↔ (c.use_huge = true ∧ env.mmap_ok (allocSize (clamp c).size_bytes) = false)) := by
  obtain ⟨o, hrun, h1, h2, h3⟩ := run_flags env c hv hm hf
  refine ⟨o, hrun, ?_⟩
  rw [h1, h2, h3]
  unfold initBuffer
  rw [hugeOk_clamp]
  cases hu : c.use_huge <;> cases hk : env.mmap_ok (allocSize (clamp c).size_bytes) <;> simp

/-- Witness for C12: `--huge` requested and the mapping refused. -/
theorem C12_huge_flag_witness :
    ∃ o, run ⟨fun _ => false, fun _ => 0⟩ ⟨800, 64, 4, 2, "seq".toList, true⟩ = .ok o ∧
      (o.huge_pages_used = 1
        ↔ ((⟨800, 64, 4, 2, "seq".toList, true⟩ : Config).use_huge = true
          ∧ (⟨fun _ => false, fun _ => 0⟩ : Env).mmap_ok
              (allocSize (clamp ⟨800, 64, 4, 2, "seq".toList, true⟩).size_bytes) = true)) ∧
      (o.huge_pages_used = 0 ∨ o.huge_pages_used = 1) ∧
      (o.munmap_len.isSome = true ↔ o.huge_pages_used = 1) ∧
      (((⟨800, 64, 4, 2, "seq".toList, true⟩ : Config).use_huge = false
          ∨ (⟨fun _ => false, fun _ => 0⟩ : Env).mmap_ok
              (allocSize (clamp ⟨800, 64, 4, 2, "seq".toList, true⟩).size_bytes) = false) →
        o.huge_pages_used = 0 ∧ o.munmap_len = none ∧
        initBuffer ⟨fun _ => false, fun _ => 0⟩ (clamp ⟨800, 64, 4, 2, "seq".toList, true⟩)
            (elementCount (clamp ⟨800, 64, 4, 2, "seq".toList, true⟩).size_bytes)
          = .ok (List.replicate
              (elementCount (clamp ⟨800, 64, 4, 2, "seq".toList, true⟩).size_bytes) 1)) ∧
      (o.warn_fallback = true
        ↔ ((⟨800, 64, 4, 2, "seq".toList, true⟩ : Config).use_huge = true
          ∧ (⟨fun _ => false, fun _ => 0⟩ : Env).mmap_ok
              (allocSize (clamp ⟨800, 64, 4, 2, "seq".toList, true⟩).size_bytes) = false)) :=
  C12_huge_flag_and_release ⟨fun _ => false, fun _ => 0⟩ ⟨800, 64, 4, 2, "seq".toList, true⟩
    ⟨by decide, by decide, by decide, by decide, by decide, by decide⟩ rfl (by decide)

/-! ## Reads and aggregate of a valid run -/

theorem mem_workerResult_reads (passes : Nat) (reads : List Nat) (x : Nat)
    (h : x ∈ (workerResult passes reads).reads) : x ∈ reads := by
  unfold workerResult at h
  simp only [List.mem_flatten] at h
  obtain ⟨l, hl, hx⟩ := h
  rw [List.eq_of_mem_replicate hl] at hx
  exact hx

theorem length_workerResult_reads (passes : Nat) (reads : List Nat) :
    (workerResult passes reads).reads.length = passes * reads.length := by
  unfold workerResult
  simp only [List.length_flatten, List.map_replicate, List.sum_const_nat]

theorem localSum_workerResult (passes : Nat) (reads : List Nat) :
    (workerResult passes reads).localSum = (workerResult passes reads).reads.length % 2 ^ 64 := by
  rw [length_workerResult_reads]
  rfl

theorem foldl_sink (results : List WorkerState) :
    ∀ a : Nat, a < 2 ^ 64 →
      results.foldl (fun s r => (s + r.localSum) % 2 ^ 64) a
        = (a + (results.map (fun r => r.localSum)).sum) % 2 ^ 64 := by
  induction results with
  | nil =>
    intro a ha
    simp only [List.foldl_nil, List.map_nil, List.sum_nil, Nat.add_zero]
    exact (Nat.mod_eq_of_lt ha).symm
  | cons r rest ih =>
    intro a _
    simp only [List.foldl_cons, List.map_cons, List.sum_cons]
    rw [ih _ (Nat.mod_lt _ (by norm_num))]
    omega

theorem sum_mod_eq (l : List Nat) :
    (l.map (fun x => x % 2 ^ 64)).sum % 2 ^ 64 = l.sum % 2 ^ 64 := by
  induction l with
  | nil => rfl
  | cons x rest ih =>
    simp only [List.map_cons, List.sum_cons]
    omega

theorem sinkAfter_workerResults (passes : Nat) (reads : List (List Nat)) :
    sinkAfter (reads.map (fun r => workerResult passes r))
      = ((reads.map (fun r => (workerResult passes r).reads.length)).sum) % 2 ^ 64 := by
  unfold sinkAfter
  rw [foldl_sink _ 0 (by norm_num), Nat.zero_add, List.map_map]
  have h : ((fun r : WorkerState => r.localSum) ∘ fun r => workerResult passes r)
      = (fun x => x % 2 ^ 64) ∘ (fun r => (workerResult passes r).reads.length) := by
    funext r
    exact localSum_workerResult passes r
  rw [h, ← List.map_map, sum_mod_eq]

theorem indicesOf_lt (rand : Nat → Nat) (c : Config) (hv : ValidConfig c) :
    ∀ x, x ∈ indicesOf rand c → x < elementCount (clamp c).size_bytes := by
  obtain ⟨_, hs2, _, hz2⟩ := clamp_bounds c hv.size_lt hv.stride_lt
  have hel := elementCount_lt (clamp c).size_bytes hz2
  obtain ⟨indices, hplan, hlt, _⟩ := planIndices_ok rand (clamp c).pattern
    (elementCount (clamp c).size_bytes) (clamp c).stride_bytes (by omega) hs2
  unfold indicesOf
  rw [hplan]
  exact hlt

theorem threadReads_lt (rand : Nat → Nat) (c : Config) (hv : ValidConfig c) (n t : Nat) :
    ∀ x, x ∈ threadReads rand c n t → x < elementCount (clamp c).size_bytes := by
  intro x hx
  unfold threadReads passReads at hx
  split at hx
  · rw [mem_inRange] at hx
    exact indicesOf_lt rand c hv x hx.1
  · rw [mem_seqReads _ _ _ _ (strideElems_pos _)] at hx
    exact lt_of_lt_of_le hx.2.1 (boundary_le _ _ _)

theorem allOnes_length (buffer : List Nat) (elements : Nat) (h : AllOnes buffer elements) :
    elements ≤ buffer.length := by
  by_contra hlt
  have h1 := h buffer.length (by omega)
  rw [List.getElem?_eq_none (le_refl _)] at h1
  cases h1

theorem initBuffer_huge_length (env : Env) (c : Config) (elements : Nat) (buffer : List Nat)
    (hh : hugeOk env c = true) (hb : initBuffer env c elements = .ok buffer) :
    buffer.length = allocSize c.size_bytes / 8 := by
  unfold initBuffer at hb
  simp only [hh, if_true] at hb
  by_cases hl : elements ≤ (List.replicate (allocSize c.size_bytes / 8) 0).length
  · obtain ⟨mem2, h2, _, h4⟩ := fillLoop_ok elements (elements + 1) 0
      (List.replicate (allocSize c.size_bytes / 8) 0) (by omega) hl (by omega)
      (by intro j hj; omega)
    rw [h2] at hb
    rw [← Except.ok.inj hb, h4, List.length_replicate]
  · exfalso
    have key : ∀ (n i : Nat) (mem : List Nat), elements - i < n → i ≤ mem.length →
        mem.length < elements → fillLoop elements n i mem = .error .out_of_bounds := by
      intro n
      induction n with
      | zero => intro i mem h; omega
      | succ n ih =>
        intro i mem h hi hm
        unfold fillLoop
        have h1 : i < elements := by omega
        simp only [h1, if_true]
        by_cases h2 : i < mem.length
        · simp only [h2, if_true]
          exact ih (i + 1) (mem.set i 1) (by omega) (by rw [List.length_set]; omega)
            (by rw [List.length_set]; exact hm)
        · simp only [h2, if_false]
    rw [key (elements + 1) 0 _ (by omega) (Nat.zero_le _) (by omega)] at hb
    cases hb

/-- C13. After acquisition, on the huge-page path and on the standard path,
each of the `element_count` first words of the buffer holds 1; the workers
receive the buffer as a value and return only their sum, so nothing is written
afterwards: every offset read by the warm-up and by the timed workers holds 1
when read, and the aggregate is the number of timed reads. -/
theorem C13_buffer_holds_ones (env : Env) (c : Config) (hv : ValidConfig c)
    (hm : env.mmap_ok 0 = false) (hf : totalFits c = true) :
    ∃ buffer o,
      initBuffer env (clamp c) (elementCount (clamp c).size_bytes) = .ok buffer ∧
      (∀ idx, idx < elementCount (clamp c).size_bytes → buffer[idx]? = some 1) ∧
      elementCount (clamp c).size_bytes ≤ buffer.length ∧
      (hugeOk env (clamp c) = true → buffer.length = allocSize (clamp c).size_bytes / 8) ∧
      (hugeOk env (clamp c) = false
        → buffer = List.replicate (elementCount (clamp c).size_bytes) 1) ∧
      run env c = .ok o ∧
      (∀ x, x ∈ o.warmup_reads → buffer[x]? = some 1) ∧
      (∀ r, r ∈ o.timed_reads → ∀ x, x ∈ r → buffer[x]? = some 1) ∧
      o.sink = (o.timed_reads.map List.length).sum % 2 ^ 64 := by
  obtain ⟨_, _, hz1, hz2⟩ := clamp_bounds c hv.size_lt hv.stride_lt
  obtain ⟨buffer, hbuf, hones⟩ := initBuffer_ok env (clamp c) hm hz2 (by omega)
  obtain ⟨o, hrun, _, _, _, _, _, _, _, _, hsink, _, hwarm, htimed⟩ := run_ok env c hv hm hf
  refine ⟨buffer, o, hbuf, hones, allOnes_length _ _ hones, ?_, ?_, hrun, ?_, ?_, ?_⟩
  · intro hh
    exact initBuffer_huge_length env (clamp c) _ buffer hh hbuf
  · intro hh
    unfold initBuffer at hbuf
    simp only [hh, Bool.false_eq_true, if_false] at hbuf
    exact (Except.ok.inj hbuf).symm
  · intro x hx
    rw [hwarm] at hx
    exact hones x (threadReads_lt env.rand c hv _ _ x (mem_workerResult_reads _ _ x hx))
  · intro r hr x hx
    rw [htimed, List.mem_map] at hr
    obtain ⟨t, _, rfl⟩ := hr
    exact hones x (threadReads_lt env.rand c hv _ _ x (mem_workerResult_reads _ _ x hx))
  · rw [hsink, htimed, List.map_map]
    have := sinkAfter_workerResults c.iters.toNat
      ((List.range c.threads.toNat).map (fun t => threadReads env.rand c c.threads.toNat t))
    rw [List.map_map, List.map_map] at this
    exact this

/-- Witness for C13: `--huge` with a successful mapping of 2 MiB for 800 bytes. -/
theorem C13_buffer_holds_ones_witness :
    ∃ buffer o,
      initBuffer ⟨fun len => decide (len ≠ 0), fun _ => 0⟩
          (clamp ⟨800, 64, 4, 2, "seq".toList, true⟩)
          (elementCount (clamp ⟨800, 64, 4, 2, "seq".toList, true⟩).size_bytes) = .ok buffer ∧
      (∀ idx, idx < elementCount (clamp ⟨800, 64, 4, 2, "seq".toList, true⟩).size_bytes
        → buffer[idx]? = some 1) ∧
      elementCount (clamp ⟨800, 64, 4, 2, "seq".toList, true⟩).size_bytes ≤ buffer.length ∧
      (hugeOk ⟨fun len => decide (len ≠ 0), fun _ => 0⟩
          (clamp ⟨800, 64, 4, 2, "seq".toList, true⟩) = true
        → buffer.length
          = allocSize (clamp ⟨800, 64, 4, 2, "seq".toList, true⟩).size_bytes / 8) ∧
      (hugeOk ⟨fun len => decide (len ≠ 0), fun _ => 0⟩
          (clamp ⟨800, 64, 4, 2, "seq".toList, true⟩) = false
        → buffer = List.replicate
            (elementCount (clamp ⟨800, 64, 4, 2, "seq".toList, true⟩).size_bytes) 1) ∧
      run ⟨fun len => decide (len ≠ 0), fun _ => 0⟩ ⟨800, 64, 4, 2, "seq".toList, true⟩
        = .ok o ∧
      (∀ x, x ∈ o.warmup_reads → buffer[x]? = some 1) ∧
      (∀ r, r ∈ o.timed_reads → ∀ x, x ∈ r → buffer[x]? = some 1) ∧
      o.sink = (o.timed_reads.map List.length).sum % 2 ^ 64 :=
  C13_buffer_holds_ones ⟨fun len => decide (len ≠ 0), fun _ => 0⟩
    ⟨800, 64, 4, 2, "seq".toList, true⟩
    ⟨by decide, by decide, by decide, by decide, by decide, by decide⟩ (by decide) (by decide)

/-! ## Unknown arguments -/

theorem argStep_unknown (c : Config) (arg : List Char) (h : isKnownFlag arg = false) :
    argStep c arg = .error (.unknown_arg arg) := by
  unfold isKnownFlag at h
  simp only [Bool.or_eq_false_iff, decide_eq_false_iff_not] at h
  obtain ⟨⟨⟨⟨⟨h1, h2⟩, h3⟩, h4⟩, h5⟩, h6⟩ := h
  unfold argStep
  simp only [h1, h2, h3, h4, h5, h6, Bool.false_eq_true, if_false]

theorem parseArgs_unknown (pre post : List (List Char)) (bad : List Char) (c : Config)
    (hpre : parseArgs pre = .ok c) (hbad : isKnownFlag bad = false) :
    parseArgs (pre ++ bad :: post) = .error (.unknown_arg bad) := by
  unfold parseArgs at hpre ⊢
  rw [List.foldlM_append, hpre]
  show List.foldlM argStep c (bad :: post) = _
  rw [List.foldlM_cons, argStep_unknown c bad hbad]
  rfl

/-- C14. When an argument is none of `--size=...`, `--stride=...`,
`--threads=...`, `--iters=...`, `--pattern=...`, `--huge` and the arguments
before it parse, the program writes `Unknown arg: <arg>` to the error stream,
returns 1 and emits no result line, whatever follows that argument. -/
theorem C14_unknown_flag_fatal (env : Env) (pre post : List (List Char)) (bad : List Char)
    (c : Config) (hpre : parseArgs pre = .ok c) (hbad : isKnownFlag bad = false) :
    mainProgram env (pre ++ bad :: post) = .error (.unknown_arg bad) ∧
    exitCode (mainProgram env (pre ++ bad :: post)) = some 1 ∧
    unknownArgLine (mainProgram env (pre ++ bad :: post))
      = some ("Unknown arg: ".toList ++ bad ++ [Char.ofNat 10]) ∧
    emitsResultLine (mainProgram env (pre ++ bad :: post)) = false ∧
    (∀ o, mainProgram env (pre ++ bad :: post) ≠ .ok o) := by
  have h : mainProgram env (pre ++ bad :: post) = .error (.unknown_arg bad) := by
    unfold mainProgram
    rw [parseArgs_unknown pre post bad c hpre hbad]
    rfl
  rw [h]
  refine ⟨rfl, rfl, rfl, rfl, ?_⟩
  intro o ho
  cases ho

/-- Witness for C14: `--size=1M --foo --huge`. -/
theorem C14_unknown_flag_witness :
    mainProgram ⟨fun _ => false, fun _ => 0⟩
        (["--size=1M".toList] ++ "--foo".toList :: ["--huge".toList])
      = .error (.unknown_arg "--foo".toList) ∧
    exitCode (mainProgram ⟨fun _ => false, fun _ => 0⟩
        (["--size=1M".toList] ++ "--foo".toList :: ["--huge".toList])) = some 1 ∧
    unknownArgLine (mainProgram ⟨fun _ => false, fun _ => 0⟩
        (["--size=1M".toList] ++ "--foo".toList :: ["--huge".toList]))
      = some ("Unknown arg: ".toList ++ "--foo".toList ++ [Char.ofNat 10]) ∧
    emitsResultLine (mainProgram ⟨fun _ => false, fun _ => 0⟩
        (["--size=1M".toList] ++ "--foo".toList :: ["--huge".toList])) = false ∧
    (∀ o, mainProgram ⟨fun _ => false, fun _ => 0⟩
        (["--size=1M".toList] ++ "--foo".toList :: ["--huge".toList]) ≠ .ok o) :=
  C14_unknown_flag_fatal ⟨fun _ => false, fun _ => 0⟩ ["--size=1M".toList] ["--huge".toList]
    "--foo".toList ⟨1048576, 64, 1, 4, "seq".toList, false⟩ (by decide) (by decide)

/-! ## The warm-up -/

/-- C15 fails on the code. The warm-up is the call `worker(0)`, which runs all
`iters` passes over thread 0's range: for every valid run the warm-up reads
are `iters` copies of one sweep, and with `--size=256 --iters=3` the warm-up
reads the offsets 0, 8, 16, 24 three times. Its sum is discarded: the
aggregate after the timed run counts the 12 timed reads only. -/
theorem C15_warmup_runs_every_pass :
    (∀ (env : Env) (c : Config), ValidConfig c → env.mmap_ok 0 = false → totalFits c = true →
      ∃ o, run env c = .ok o ∧
        o.warmup_reads
          = (List.replicate c.iters.toNat (threadReads env.rand c c.threads.toNat 0)).flatten ∧
        o.warmup_reads.length
          = c.iters.toNat * (threadReads env.rand c c.threads.toNat 0).length) ∧
    (∀ env : Env, (mainProgram env ["--size=256".toList, "--iters=3".toList]).map
        (fun o => (o.iters, o.warmup_reads, o.timed_reads, o.sink))
      = .ok (3, [0, 8, 16, 24, 0, 8, 16, 24, 0, 8, 16, 24],
          [[0, 8, 16, 24, 0, 8, 16, 24, 0, 8, 16, 24]], 12)) := by
  constructor
  · intro env c hv hm hf
    obtain ⟨o, hrun, _, _, _, _, _, _, _, _, _, _, hwarm, _⟩ := run_ok env c hv hm hf
    refine ⟨o, hrun, ?_, ?_⟩
    · rw [hwarm]
      rfl
    · rw [hwarm, length_workerResult_reads]
  · intro env
    rfl

/-! ## Length of the huge-page mapping -/

theorem allocSize_eq (size_bytes : Nat) (hb : size_bytes + 2 * 1024 * 1024 - 1 < 2 ^ 64) :
    allocSize size_bytes
      = (size_bytes + 2 * 1024 * 1024 - 1) / (2 * 1024 * 1024) * (2 * 1024 * 1024) := by
  unfold allocSize huge_page_sz
  norm_num at *
  omega

theorem allocSize_least (size_bytes : Nat) (hb : size_bytes + 2 * 1024 * 1024 - 1 < 2 ^ 64) :
    2 * 1024 * 1024 ∣ allocSize size_bytes ∧ size_bytes ≤ allocSize size_bytes ∧
    (∀ m, 2 * 1024 * 1024 ∣ m → size_bytes ≤ m → allocSize size_bytes ≤ m) := by
  rw [allocSize_eq size_bytes hb]
  refine ⟨Dvd.intro_left _ rfl, ?_, ?_⟩
  · norm_num at *
    omega
  · rintro m ⟨k, rfl⟩ hk
    norm_num at *
    omega

theorem elementCount_le_allocSize (size_bytes : Nat) (h1 : 1 ≤ size_bytes)
    (hb : size_bytes + 2 * 1024 * 1024 - 1 < 2 ^ 64) :
    8 * elementCount size_bytes ≤ allocSize size_bytes := by
  rw [allocSize_eq size_bytes hb, elementCount_eq_max]
  norm_num at *
  omega

/-- C16. For `size_bytes >= 1` with `size_bytes + 2 MiB - 1 < 2 ^ 64`,
`alloc_size = ((size_bytes + 2 MiB - 1) / 2 MiB) * 2 MiB` is the least multiple
of 2 MiB that is at least `size_bytes`, and it covers the `8 * element_count`
bytes that are initialised; in a valid run that used huge pages the length
handed to `munmap` is the length the successful `mmap` was called with, and
the mapping holds `alloc_size / 8` words. -/
theorem C16_alloc_size_least_multiple (size_bytes : Nat) (h1 : 1 ≤ size_bytes)
    (hb : size_bytes + 2 * 1024 * 1024 - 1 < 2 ^ 64) :
    allocSize size_bytes
      = (size_bytes + 2 * 1024 * 1024 - 1) / (2 * 1024 * 1024) * (2 * 1024 * 1024) ∧
    2 * 1024 * 1024 ∣ allocSize size_bytes ∧
    size_bytes ≤ allocSize size_bytes ∧
    (∀ m, 2 * 1024 * 1024 ∣ m → size_bytes ≤ m → allocSize size_bytes ≤ m) ∧
    8 * elementCount size_bytes ≤ allocSize size_bytes ∧
    (∀ (env : Env) (c : Config), ValidConfig c → env.mmap_ok 0 = false → totalFits c = true →
      (clamp c).size_bytes = size_bytes →
      ∃ o buffer, run env c = .ok o ∧
        initBuffer env (clamp c) (elementCount size_bytes) = .ok buffer ∧
        (o.huge_pages_used = 1 →
          env.mmap_ok (allocSize size_bytes) = true ∧
          o.munmap_len = some (allocSize size_bytes) ∧
          buffer.length = allocSize size_bytes / 8) ∧
        (o.huge_pages_used ≠ 1 → o.munmap_len = none)) := by
  obtain ⟨hd, hge, hleast⟩ := allocSize_least size_bytes hb
  refine ⟨allocSize_eq size_bytes hb, hd, hge, hleast,
    elementCount_le_allocSize size_bytes h1 hb, ?_⟩
  intro env c hv hm hf hsz
  obtain ⟨_, _, _, hz2⟩ := clamp_bounds c hv.size_lt hv.stride_lt
  obtain ⟨o, hrun, hflag, hlen, _⟩ := run_flags env c hv hm hf
  obtain ⟨buffer, hbuf, _⟩ := initBuffer_ok env (clamp c) hm hz2 (by omega)
  rw [hsz] at hbuf hlen
  refine ⟨o, buffer, hrun, hbuf, ?_, ?_⟩
  · intro h
    rw [hflag] at h
    have hh : hugeOk env (clamp c) = true := by
      by_contra hne
      simp only [hne, if_false] at h
      cases h
    have hk := hh
    rw [hugeOk_clamp, hsz] at hk
    simp only [Bool.and_eq_true] at hk
    refine ⟨hk.2, ?_, ?_⟩
    · rw [hlen]
      simp only [hh, if_true]
    · have := initBuffer_huge_length env (clamp c) _ buffer hh hbuf
      rw [hsz] at this
      exact this
  · intro h
    rw [hflag] at h
    have hh : ¬ hugeOk env (clamp c) = true := by
      intro hk
      simp only [hk, if_true] at h
      exact h rfl
    rw [hlen, if_neg hh]

/-- Witness for C16: 800 bytes are mapped as one 2 MiB page. -/
theorem C16_alloc_size_witness :
    allocSize 800 = (800 + 2 * 1024 * 1024 - 1) / (2 * 1024 * 1024) * (2 * 1024 * 1024) ∧
    2 * 1024 * 1024 ∣ allocSize 800 ∧
    800 ≤ allocSize 800 ∧
    (∀ m, 2 * 1024 * 1024 ∣ m → 800 ≤ m → allocSize 800 ≤ m) ∧
    8 * elementCount 800 ≤ allocSize 800 ∧
    (∀ (env : Env) (c : Config), ValidConfig c → env.mmap_ok 0 = false → totalFits c = true →
      (clamp c).size_bytes = 800 →
      ∃ o buffer, run env c = .ok o ∧
        initBuffer env (clamp c) (elementCount 800) = .ok buffer ∧
        (o.huge_pages_used = 1 →
          env.mmap_ok (allocSize 800) = true ∧
          o.munmap_len = some (allocSize 800) ∧
          buffer.length = allocSize 800 / 8) ∧
        (o.huge_pages_used ≠ 1 → o.munmap_len = none)) :=
  C16_alloc_size_least_multiple 800 (by decide) (by decide)

/-! ## The sequential worker -/

/-- C17. Over a buffer of ones, for a range `[start, end)` with
`end <= element_count` and `stride_elements = max 1 (stride_bytes / 8)`, one
sequential pass reads exactly `start, start + stride_elements, ...` below
`end`, in ascending order: `ceil ((end - start) / stride_elements)` reads, each
below `element_count`; after `pass_count` passes the local sum is
`pass_count * ceil ((end - start) / stride_elements)` (a `uint64_t`, so the
product is taken below `2 ^ 64`). -/
theorem C17_sequential_worker (buffer indices : List Nat) (pattern : List Char)
    (elements start end_ stride_bytes passes : Nat)
    (hb : AllOnes buffer elements) (he : end_ ≤ elements) (hel : elements < 2 ^ 63)
    (hs : stride_bytes < 2 ^ 64) (hp : pattern ≠ "random".toList)
    (hsum : passes * ⌈((end_ - start : ℕ) : ℚ) / ((max 1 (stride_bytes / 8) : ℕ) : ℚ)⌉₊
      < 2 ^ 64) :
    strideElems stride_bytes = max 1 (stride_bytes / 8) ∧
    workerPass buffer indices pattern start end_ (max 1 (stride_bytes / 8)) ⟨0, []⟩
      = .ok ⟨⌈((end_ - start : ℕ) : ℚ) / ((max 1 (stride_bytes / 8) : ℕ) : ℚ)⌉₊,
          List.range' start
            ⌈((end_ - start : ℕ) : ℚ) / ((max 1 (stride_bytes / 8) : ℕ) : ℚ)⌉₊
            (max 1 (stride_bytes / 8))⟩ ∧
    (∀ x, x ∈ List.range' start
          ⌈((end_ - start : ℕ) : ℚ) / ((max 1 (stride_bytes / 8) : ℕ) : ℚ)⌉₊
          (max 1 (stride_bytes / 8))
        ↔ start ≤ x ∧ x < end_ ∧ (x - start) % max 1 (stride_bytes / 8) = 0) ∧
    (∀ x, x ∈ List.range' start
          ⌈((end_ - start : ℕ) : ℚ) / ((max 1 (stride_bytes / 8) : ℕ) : ℚ)⌉₊
          (max 1 (stride_bytes / 8))
        → x < elements ∧ buffer[x]? = some 1) ∧
    (List.range' start
        ⌈((end_ - start : ℕ) : ℚ) / ((max 1 (stride_bytes / 8) : ℕ) : ℚ)⌉₊
        (max 1 (stride_bytes / 8))).Sorted (· < ·) ∧
    passLoop (workerPass buffer indices pattern start end_ (max 1 (stride_bytes / 8)))
        passes ⟨0, []⟩
      = .ok ⟨passes * ⌈((end_ - start : ℕ) : ℚ) / ((max 1 (stride_bytes / 8) : ℕ) : ℚ)⌉₊,
          (List.replicate passes (List.range' start
            ⌈((end_ - start : ℕ) : ℚ) / ((max 1 (stride_bytes / 8) : ℕ) : ℚ)⌉₊
            (max 1 (stride_bytes / 8)))).flatten⟩ := by
  rw [← strideElems_eq_max, natCeil_div_eq _ _ (strideElems_pos _)] at *
  have hsp := strideElems_pos stride_bytes
  have hsl := strideElems_le stride_bytes hs
  have hpass : ∀ st : WorkerState, st.localSum < 2 ^ 64 →
      workerPass buffer indices pattern start end_ (strideElems stride_bytes) st
        = .ok ⟨(st.localSum
              + (List.range' start (seqCount start end_ (strideElems stride_bytes))
                  (strideElems stride_bytes)).length) % 2 ^ 64,
            st.reads ++ List.range' start (seqCount start end_ (strideElems stride_bytes))
              (strideElems stride_bytes)⟩ := by
    intro st hst
    unfold workerPass
    simp only [hp, if_false]
    rw [seqPass_eq buffer elements start end_ _ hb he hsp (by omega) st hst,
      List.length_range']
  have hcnt : (end_ - start + strideElems stride_bytes - 1) / strideElems stride_bytes
      = seqCount start end_ (strideElems stride_bytes) := rfl
  rw [hcnt] at hsum ⊢
  have hone : seqCount start end_ (strideElems stride_bytes) < 2 ^ 64 := by
    have h1 : seqCount start end_ (strideElems stride_bytes) ≤ end_ - start := by
      unfold seqCount
      rw [Nat.div_le_iff_le_mul_add_pred hsp]
      have : end_ - start ≤ strideElems stride_bytes * (end_ - start) :=
        Nat.le_mul_of_pos_left _ hsp
      omega
    omega
  refine ⟨rfl, ?_, ?_, ?_, ?_, ?_⟩
  · rw [hpass ⟨0, []⟩ (by norm_num), List.length_range']
    simp only [Nat.zero_add, List.nil_append]
    rw [Nat.mod_eq_of_lt hone]
  · intro x
    exact mem_seqReads start end_ _ x hsp
  · intro x hx
    rw [mem_seqReads start end_ _ x hsp] at hx
    exact ⟨by omega, hb x (by omega)⟩
  · exact List.pairwise_lt_range' start _ _ hsp
  · rw [passLoop_eq _ _ hpass passes ⟨0, []⟩ (by norm_num), List.length_range']
    simp only [Nat.zero_add, List.nil_append]
    rw [Nat.mod_eq_of_lt hsum]

/-- Witness for C17: the range `[25, 50)` of 100 ones, stride 64, three passes. -/
theorem C17_sequential_worker_witness :
    strideElems 64 = max 1 (64 / 8) ∧
    workerPass (List.replicate 100 1) [] "seq".toList 25 50 (max 1 (64 / 8)) ⟨0, []⟩
      = .ok ⟨⌈((50 - 25 : ℕ) : ℚ) / ((max 1 (64 / 8) : ℕ) : ℚ)⌉₊,
          List.range' 25
            ⌈((50 - 25 : ℕ) : ℚ) / ((max 1 (64 / 8) : ℕ) : ℚ)⌉₊
            (max 1 (64 / 8))⟩ ∧
    (∀ x, x ∈ List.range' 25
          ⌈((50 - 25 : ℕ) : ℚ) / ((max 1 (64 / 8) : ℕ) : ℚ)⌉₊
          (max 1 (64 / 8))
        ↔ 25 ≤ x ∧ x < 50 ∧ (x - 25) % max 1 (64 / 8) = 0) ∧
    (∀ x, x ∈ List.range' 25
          ⌈((50 - 25 : ℕ) : ℚ) / ((max 1 (64 / 8) : ℕ) : ℚ)⌉₊
          (max 1 (64 / 8))
        → x < 100 ∧ (List.replicate 100 1)[x]? = some 1) ∧
    (List.range' 25
        ⌈((50 - 25 : ℕ) : ℚ) / ((max 1 (64 / 8) : ℕ) : ℚ)⌉₊
        (max 1 (64 / 8))).Sorted (· < ·) ∧
    passLoop (workerPass (List.replicate 100 1) [] "seq".toList 25 50 (max 1 (64 / 8)))
        3 ⟨0, []⟩
      = .ok ⟨3 * ⌈((50 - 25 : ℕ) : ℚ) / ((max 1 (64 / 8) : ℕ) : ℚ)⌉₊,
          (List.replicate 3 (List.range' 25
            ⌈((50 - 25 : ℕ) : ℚ) / ((max 1 (64 / 8) : ℕ) : ℚ)⌉₊
            (max 1 (64 / 8)))).flatten⟩ :=
  C17_sequential_worker (List.replicate 100 1) [] "seq".toList 100 25 50 64 3
    (allOnes_replicate 100) (by decide) (by decide) (by decide) (by decide)
    (by rw [natCeil_div_eq _ _ (by decide)]; decide)

/-! ## The random worker -/

theorem length_inRange_split (l : List Nat) (a m e : Nat) (h1 : a ≤ m) (h2 : m ≤ e) :
    (inRange l a m).length + (inRange l m e).length = (inRange l a e).length := by
  induction l with
  | nil => rfl
  | cons x rest ih =>
    unfold inRange at ih ⊢
    simp only [List.filter_cons]
    by_cases c1 : a ≤ x <;> by_cases c2 : x < m <;> by_cases c3 : x < e <;>
      by_cases c4 : m ≤ x <;>
      simp only [c1, c2, c3, c4, and_self, and_true, and_false, true_and, false_and,
        decide_True, decide_False, if_true, if_false, Bool.false_eq_true,
        List.length_cons] <;> omega

theorem sum_length_inRange (l : List Nat) (b : Nat → Nat) (hb : Monotone b) (n : Nat) :
    ((List.range n).map (fun t => (inRange l (b t) (b (t + 1))).length)).sum
      = (inRange l (b 0) (b n)).length := by
  induction n with
  | zero =>
    have h : inRange l (b 0) (b 0) = [] := by
      unfold inRange
      rw [List.filter_eq_nil_iff]
      intro x _
      simp only [decide_eq_true_eq]
      omega
    rw [h]
    rfl
  | succ n ih =>
    rw [List.range_succ, List.map_append, List.sum_append, ih]
    simp only [List.map_cons, List.map_nil, List.sum_cons, List.sum_nil, Nat.add_zero]
    exact length_inRange_split l (b 0) (b n) (b (n + 1)) (hb (Nat.zero_le n))
      (hb (Nat.le_succ n))

theorem inRange_full (l : List Nat) (e : Nat) (h : ∀ x, x ∈ l → x < e) :
    inRange l 0 e = l := by
  unfold inRange
  rw [List.filter_eq_self]
  intro x hx
  simp only [Nat.zero_le, true_and, decide_eq_true_eq]
  exact h x hx

theorem length_multiplesBelow (elements step : Nat) (hs : 0 < step) :
    (multiplesBelow elements step).length = (elements + step - 1) / step := by
  rw [← range'_eq_multiplesBelow elements step hs, List.length_range']

theorem sum_map_const_mul (l : List Nat) (p : Nat) (f : Nat → Nat) :
    (l.map (fun t => p * f t)).sum = p * (l.map f).sum := by
  induction l with
  | nil => rfl
  | cons x rest ih =>
    simp only [List.map_cons, List.sum_cons, ih]
    ring

theorem threadReads_random (rand : Nat → Nat) (c : Config) (n t : Nat)
    (hp : c.pattern = "random".toList) :
    threadReads rand c n t
      = inRange (indicesOf rand c) (boundary (elementCount (clamp c).size_bytes) n t)
          (boundary (elementCount (clamp c).size_bytes) n (t + 1)) := by
  unfold threadReads passReads
  rw [clamp_pattern, hp]
  simp only [if_true]

theorem boundary_zero (elements n : Nat) (hn : 1 ≤ n) : boundary elements n 0 = 0 := by
  have h1 : 0 < n := by omega
  simp [boundary, h1]

theorem boundary_last (elements n : Nat) : boundary elements n n = elements := by
  simp [boundary]

/-- C18. In a valid run with `pattern = random`, thread `t` reads in each pass
exactly the entries of the shared index vector that lie in `[start_t, end_t)`,
in the order of the vector; every entry of the vector lies in the range of
exactly one thread and occurs once in the vector, every index read is below
`element_count`, and all threads together make
`pass_count * ceil (element_count / stride_elements)` reads. -/
theorem C18_random_worker_coverage (env : Env) (c : Config) (hv : ValidConfig c)
    (hm : env.mmap_ok 0 = false) (hf : totalFits c = true)
    (hp : c.pattern = "random".toList) :
    ∃ o indices,
      run env c = .ok o ∧
      planIndices env.rand "random".toList (elementCount (clamp c).size_bytes)
        (clamp c).stride_bytes = .ok indices ∧
      (∀ t : Nat, t < c.threads.toNat → ∃ start end_,
        workerRange (elementCount (clamp c).size_bytes) c.threads (t : Int)
          = .ok (start, end_) ∧
        o.timed_reads[t]? = some ((List.replicate c.iters.toNat
          (indices.filter (fun idx => start ≤ idx ∧ idx < end_))).flatten)) ∧
      indices.Nodup ∧
      (∀ x, x ∈ indices → ∃! t : Nat, t < c.threads.toNat ∧ ∃ start end_,
        workerRange (elementCount (clamp c).size_bytes) c.threads (t : Int)
          = .ok (start, end_) ∧ start ≤ x ∧ x < end_) ∧
      (∀ r, r ∈ o.timed_reads → ∀ x, x ∈ r → x < elementCount (clamp c).size_bytes) ∧
      (o.timed_reads.map List.length).sum
        = c.iters.toNat * ⌈((elementCount (clamp c).size_bytes : ℕ) : ℚ)
            / ((max 1 ((clamp c).stride_bytes / 8) : ℕ) : ℚ)⌉₊ := by
  obtain ⟨_, hs2, _, hz2⟩ := clamp_bounds c hv.size_lt hv.stride_lt
  have hel := elementCount_lt (clamp c).size_bytes hz2
  obtain ⟨o, hrun, _, _, _, _, _, _, _, _, _, _, _, htimed⟩ := run_ok env c hv hm hf
  obtain ⟨indices, hplan, hlt, hperm⟩ := planIndices_ok env.rand (clamp c).pattern
    (elementCount (clamp c).size_bytes) (clamp c).stride_bytes (by omega) hs2
  have hio : indicesOf env.rand c = indices := by
    unfold indicesOf
    rw [hplan]
  rw [clamp_pattern, hp] at hplan
  have hperm2 := hperm (by rw [clamp_pattern, hp])
  have hn : c.threads = ((c.threads.toNat : Nat) : Int) := by
    have := hv.threads_pos
    omega
  have hn1 : 1 ≤ c.threads.toNat := by have := hv.threads_pos; omega
  have hn2 : c.threads.toNat < 2 ^ 31 := by have := hv.threads_lt; omega
  have hwr : ∀ t : Nat, t < c.threads.toNat →
      workerRange (elementCount (clamp c).size_bytes) c.threads (t : Int)
        = .ok (boundary (elementCount (clamp c).size_bytes) c.threads.toNat t,
            boundary (elementCount (clamp c).size_bytes) c.threads.toNat (t + 1)) := by
    intro t ht
    have := workerRange_eq (elementCount (clamp c).size_bytes) c.threads.toNat t
      (by omega) hn1 hn2 ht
    rw [← hn] at this
    exact this
  have hmono := boundary_mono (elementCount (clamp c).size_bytes) c.threads.toNat
  refine ⟨o, indices, hrun, hplan, ?_, ?_, ?_, ?_, ?_⟩
  · intro t ht
    refine ⟨_, _, hwr t ht, ?_⟩
    rw [htimed, List.getElem?_map, List.getElem?_range ht, Option.map_some',
      threadReads_random _ _ _ _ hp, hio]
    rfl
  · exact (hperm2.nodup_iff).mpr (sorted_multiplesBelow _ _).nodup
  · intro x hx
    have hxl := hlt x hx
    obtain ⟨t, ht, h1, h2⟩ := exists_interval
      (boundary (elementCount (clamp c).size_bytes) c.threads.toNat) x c.threads.toNat
      (by rw [boundary_zero _ _ hn1]; exact Nat.zero_le _) (by rw [boundary_last]; exact hxl)
    refine ⟨t, ⟨ht, _, _, hwr t ht, h1, h2⟩, ?_⟩
    rintro u ⟨hu, s, e, hse, hu1, hu2⟩
    rw [hwr u hu] at hse
    have hpair := Except.ok.inj hse
    have e1 : boundary (elementCount (clamp c).size_bytes) c.threads.toNat u = s :=
      congrArg Prod.fst hpair
    have e2 : boundary (elementCount (clamp c).size_bytes) c.threads.toNat (u + 1) = e :=
      congrArg Prod.snd hpair
    exact unique_interval _ hmono x u t ⟨by omega, by omega⟩ ⟨h1, h2⟩
  · intro r hr x hx
    rw [htimed, List.mem_map] at hr
    obtain ⟨t, _, rfl⟩ := hr
    exact threadReads_lt env.rand c hv _ _ x (mem_workerResult_reads _ _ x hx)
  · rw [htimed, List.map_map]
    have hfun : (List.length ∘ fun t =>
          (workerResult c.iters.toNat (threadReads env.rand c c.threads.toNat t)).reads)
        = fun t => c.iters.toNat
            * (inRange indices (boundary (elementCount (clamp c).size_bytes) c.threads.toNat t)
                (boundary (elementCount (clamp c).size_bytes) c.threads.toNat
                  (t + 1))).length := by
      funext t
      simp only [Function.comp, length_workerResult_reads, threadReads_random _ _ _ _ hp, hio]
    rw [hfun, sum_map_const_mul, sum_length_inRange indices _ hmono, boundary_zero _ _ hn1,
      boundary_last, inRange_full indices _ hlt, hperm2.length_eq,
      length_multiplesBelow _ _ (strideElems_pos _), ← strideElems_eq_max,
      natCeil_div_eq _ _ (strideElems_pos _)]

/-- Witness for C18: 800 bytes, stride 64, four threads, two random passes. -/
theorem C18_random_worker_witness :
    ∃ o indices,
      run ⟨fun _ => false, fun k => 7 * k + 3⟩ ⟨800, 64, 4, 2, "random".toList, false⟩
        = .ok o ∧
      planIndices (fun k => 7 * k + 3) "random".toList
        (elementCount (clamp ⟨800, 64, 4, 2, "random".toList, false⟩).size_bytes)
        (clamp ⟨800, 64, 4, 2, "random".toList, false⟩).stride_bytes = .ok indices ∧
      (∀ t : Nat, t < (4 : Int).toNat → ∃ start end_,
        workerRange (elementCount (clamp ⟨800, 64, 4, 2, "random".toList, false⟩).size_bytes)
          4 (t : Int) = .ok (start, end_) ∧
        o.timed_reads[t]? = some ((List.replicate (2 : Int).toNat
          (indices.filter (fun idx => start ≤ idx ∧ idx < end_))).flatten)) ∧
      indices.Nodup ∧
      (∀ x, x ∈ indices → ∃! t : Nat, t < (4 : Int).toNat ∧ ∃ start end_,
        workerRange (elementCount (clamp ⟨800, 64, 4, 2, "random".toList, false⟩).size_bytes)
          4 (t : Int) = .ok (start, end_) ∧ start ≤ x ∧ x < end_) ∧
      (∀ r, r ∈ o.timed_reads → ∀ x, x ∈ r →
        x < elementCount (clamp ⟨800, 64, 4, 2, "random".toList, false⟩).size_bytes) ∧
      (o.timed_reads.map List.length).sum
        = (2 : Int).toNat
          * ⌈((elementCount (clamp ⟨800, 64, 4, 2, "random".toList, false⟩).size_bytes : ℕ) : ℚ)
            / ((max 1 ((clamp ⟨800, 64, 4, 2, "random".toList, false⟩).stride_bytes / 8) : ℕ)
                : ℚ)⌉₊ :=
  C18_random_worker_coverage ⟨fun _ => false, fun k => 7 * k + 3⟩
    ⟨800, 64, 4, 2, "random".toList, false⟩
    ⟨by decide, by decide, by decide, by decide, by decide, by decide⟩ rfl (by decide) rfl

/-! ## Byte accounting against the reads made -/

theorem totalBytesTouched_exact (c : Config) (hv : ValidConfig c)
    (h : c.threads.toNat
        * ((elementCount (clamp c).size_bytes / c.threads.toNat
            + strideElems (clamp c).stride_bytes - 1) / strideElems (clamp c).stride_bytes)
        * c.iters.toNat * (clamp c).stride_bytes < 2 ^ 53) :
    totalFits c = true ∧
    totalBytesTouched (clamp c) (elementCount (clamp c).size_bytes)
      = .ok (c.threads.toNat
        * ((elementCount (clamp c).size_bytes / c.threads.toNat
            + strideElems (clamp c).stride_bytes - 1) / strideElems (clamp c).stride_bytes)
        * c.iters.toNat * (clamp c).stride_bytes) := by
  have hd := totalBytesDouble_exact c hv h
  generalize c.threads.toNat
      * ((elementCount (clamp c).size_bytes / c.threads.toNat
          + strideElems (clamp c).stride_bytes - 1) / strideElems (clamp c).stride_bytes)
      * c.iters.toNat * (clamp c).stride_bytes = P at h hd ⊢
  have hP : (0 : Int) ≤ (P : Int) ∧ (P : Int) < 2 ^ 64 := by omega
  constructor
  · unfold totalFits
    rw [hd]
    simp only [decide_eq_true_eq]
    exact hP
  · unfold totalBytesTouched
    rw [hd, bind_ok]
    unfold doubleToU64
    rw [if_pos hP, Int.toNat_ofNat]

theorem sum_ge_of_le (n q : Nat) (f : Nat → Nat) (h : ∀ t, t < n → q ≤ f t) :
    n * q ≤ ((List.range n).map f).sum := by
  induction n with
  | zero => simp
  | succ n ih =>
    rw [List.range_succ, List.map_append, List.sum_append]
    simp only [List.map_cons, List.map_nil, List.sum_cons, List.sum_nil, Nat.add_zero]
    have h1 := ih (fun t ht => h t (by omega))
    have h2 := h n (by omega)
    rw [Nat.succ_mul]
    omega

theorem sum_eq_of_eq (n q : Nat) (f : Nat → Nat) (h : ∀ t, t < n → f t = q) :
    ((List.range n).map f).sum = n * q := by
  induction n with
  | zero => simp
  | succ n ih =>
    rw [List.range_succ, List.map_append, List.sum_append]
    simp only [List.map_cons, List.map_nil, List.sum_cons, List.sum_nil, Nat.add_zero]
    rw [ih (fun t ht => h t (by omega)), h n (by omega), Nat.succ_mul]

theorem boundary_width (elements n t : Nat) (ht : t < n) :
    boundary elements n t + elements / n ≤ boundary elements n (t + 1) ∧
    (t + 1 < n ∨ n ∣ elements →
      boundary elements n (t + 1) = boundary elements n t + elements / n) := by
  have hc : n * (elements / n) ≤ elements := Nat.mul_div_le elements n
  unfold boundary
  simp only [ht, if_true]
  by_cases hl : t + 1 < n
  · simp only [hl, if_true, true_or, true_implies]
    have : (t + 1) * (elements / n) = t * (elements / n) + elements / n := by ring
    omega
  · have htn : t + 1 = n := by omega
    simp only [hl, if_false, false_or]
    have h1 : (t + 1) * (elements / n) = t * (elements / n) + elements / n := by ring
    rw [htn] at h1
    constructor
    · omega
    · intro hdvd
      have h2 : n * (elements / n) = elements := Nat.mul_div_cancel' hdvd
      omega

theorem seqCount_width (start end_ w se : Nat) (hs : 0 < se) (h : start + w ≤ end_) :
    (w + se - 1) / se ≤ seqCount start end_ se ∧
    (end_ = start + w → seqCount start end_ se = (w + se - 1) / se) := by
  unfold seqCount
  constructor
  · exact Nat.div_le_div_right (by omega)
  · intro he
    have : end_ - start = w := by omega
    rw [this]

theorem seq_reads_sum (rand : Nat → Nat) (c : Config) (n : Nat)
    (hp : c.pattern ≠ "random".toList) :
    (((List.range n).map (fun t =>
        (workerResult c.iters.toNat (threadReads rand c n t)).reads)).map List.length).sum
      = c.iters.toNat * ((List.range n).map (fun t =>
          seqCount (boundary (elementCount (clamp c).size_bytes) n t)
            (boundary (elementCount (clamp c).size_bytes) n (t + 1))
            (strideElems (clamp c).stride_bytes))).sum := by
  rw [List.map_map, ← sum_map_const_mul]
  congr 2
  funext t
  simp only [Function.comp, length_workerResult_reads,
    threadReads_seq_length rand c n t hp]

/-- C19 (as the code has it). For a valid sequential configuration whose
accounting product is below `2 ^ 53` (so that the `double` arithmetic is
exact), the run completes, the final aggregate is the number of element reads
of the timed workers (modulo `2 ^ 64`), the emitted `total_bytes_touched` is
at most `stride_bytes` times that number of reads, and the two are equal when
`thread_count` divides `element_count`. -/
theorem C19_accounting_at_most_reads_when_exact (env : Env) (c : Config)
    (hv : ValidConfig c) (hm : env.mmap_ok 0 = false) (hp : c.pattern ≠ "random".toList)
    (hexact : c.threads.toNat
        * ⌈((elementCount (clamp c).size_bytes / c.threads.toNat : ℕ) : ℚ)
            / ((max 1 ((clamp c).stride_bytes / 8) : ℕ) : ℚ)⌉₊
        * c.iters.toNat * (clamp c).stride_bytes < 2 ^ 53) :
    ∃ o, run env c = .ok o ∧
      o.sink = (o.timed_reads.map List.length).sum % 2 ^ 64 ∧
      o.total_bytes_touched ≤ o.stride_bytes * (o.timed_reads.map List.length).sum ∧
      (c.threads.toNat ∣ elementCount (clamp c).size_bytes →
        o.total_bytes_touched = o.stride_bytes * (o.timed_reads.map List.length).sum) := by
  rw [← strideElems_eq_max, natCeil_div_eq _ _ (strideElems_pos _)] at hexact
  obtain ⟨hf, htotal⟩ := totalBytesTouched_exact c hv hexact
  obtain ⟨o, hrun, htot, _, hstride, _, _, _, _, _, hsink, _, _, htimed⟩ :=
    run_ok env c hv hm hf
  rw [htotal] at htot
  have htv := (Except.ok.inj htot).symm
  have hsp := strideElems_pos (clamp c).stride_bytes
  have hsum := seq_reads_sum env.rand c c.threads.toNat hp
  rw [← htimed] at hsum
  have hlow : ∀ t, t < c.threads.toNat →
      (elementCount (clamp c).size_bytes / c.threads.toNat
          + strideElems (clamp c).stride_bytes - 1) / strideElems (clamp c).stride_bytes
        ≤ seqCount (boundary (elementCount (clamp c).size_bytes) c.threads.toNat t)
            (boundary (elementCount (clamp c).size_bytes) c.threads.toNat (t + 1))
            (strideElems (clamp c).stride_bytes) := by
    intro t ht
    exact (seqCount_width _ _ _ _ hsp (boundary_width _ _ t ht).1).1
  refine ⟨o, hrun, ?_, ?_, ?_⟩
  · rw [hsink, htimed, List.map_map]
    have := sinkAfter_workerResults c.iters.toNat
      ((List.range c.threads.toNat).map (fun t => threadReads env.rand c c.threads.toNat t))
    rw [List.map_map, List.map_map] at this
    exact this
  · rw [htv, hstride, hsum]
    have h1 := sum_ge_of_le c.threads.toNat _ _ hlow
    calc c.threads.toNat
          * ((elementCount (clamp c).size_bytes / c.threads.toNat
              + strideElems (clamp c).stride_bytes - 1) / strideElems (clamp c).stride_bytes)
          * c.iters.toNat * (clamp c).stride_bytes
        = (clamp c).stride_bytes * (c.iters.toNat * (c.threads.toNat
          * ((elementCount (clamp c).size_bytes / c.threads.toNat
              + strideElems (clamp c).stride_bytes - 1)
            / strideElems (clamp c).stride_bytes))) := by ring
      _ ≤ _ := Nat.mul_le_mul_left _ (Nat.mul_le_mul_left _ h1)
  · intro hdvd
    rw [htv, hstride, hsum]
    have heq : ∀ t, t < c.threads.toNat →
        seqCount (boundary (elementCount (clamp c).size_bytes) c.threads.toNat t)
            (boundary (elementCount (clamp c).size_bytes) c.threads.toNat (t + 1))
            (strideElems (clamp c).stride_bytes)
          = (elementCount (clamp c).size_bytes / c.threads.toNat
              + strideElems (clamp c).stride_bytes - 1)
            / strideElems (clamp c).stride_bytes := by
      intro t ht
      obtain ⟨hw1, hw2⟩ := boundary_width (elementCount (clamp c).size_bytes) _ t ht
      exact (seqCount_width _ _ _ _ hsp hw1).2 (hw2 (Or.inr hdvd))
    rw [sum_eq_of_eq _ _ _ heq]
    ring

/-- Witness for C19: 808 bytes (101 elements), stride 64, four threads, two
passes. -/
theorem C19_accounting_witness :
    ∃ o, run ⟨fun _ => false, fun _ => 0⟩ ⟨808, 64, 4, 2, "seq".toList, false⟩ = .ok o ∧
      o.sink = (o.timed_reads.map List.length).sum % 2 ^ 64 ∧
      o.total_bytes_touched ≤ o.stride_bytes * (o.timed_reads.map List.length).sum ∧
      ((4 : Int).toNat ∣ elementCount (clamp ⟨808, 64, 4, 2, "seq".toList, false⟩).size_bytes →
        o.total_bytes_touched = o.stride_bytes * (o.timed_reads.map List.length).sum) :=
  C19_accounting_at_most_reads_when_exact ⟨fun _ => false, fun _ => 0⟩
    ⟨808, 64, 4, 2, "seq".toList, false⟩
    ⟨by decide, by decide, by decide, by decide, by decide, by decide⟩ rfl (by decide)
    (by rw [natCeil_div_eq _ _ (by decide)]; decide)

theorem log2_example : Nat.log2 36028799132893182 = 55 := by
  rw [Nat.log2_eq_log_two, Nat.log_eq_iff (by norm_num)]
  norm_num

theorem roundNat_example : roundNat 36028799132893182 = 36028799132893184 := by
  unfold roundNat
  rw [log2_example]
  norm_num

theorem totalBytesDouble_example :
    totalBytesDouble (clamp ⟨1073741824, 1073741823, 1, 16777217, "seq".toList, false⟩)
        (elementCount
          (clamp ⟨1073741824, 1073741823, 1, 16777217, "seq".toList, false⟩).size_bytes)
      = .ok 36028799132893184 := by
  have h1 : totalBytesDouble
        (clamp ⟨1073741824, 1073741823, 1, 16777217, "seq".toList, false⟩)
        (elementCount
          (clamp ⟨1073741824, 1073741823, 1, 16777217, "seq".toList, false⟩).size_bytes)
      = .ok (mulDouble 33554434 1073741823) := by
    rfl
  have h2 : mulDouble 33554434 1073741823 = 36028799132893184 := by
    unfold mulDouble roundInt
    norm_num
    exact_mod_cast roundNat_example
  rw [h1, h2]

theorem sink_eq_reads (o : Output) (passes n : Nat) (reads : Nat → List Nat)
    (hsink : o.sink = sinkAfter ((List.range n).map (fun t => workerResult passes (reads t))))
    (htimed : o.timed_reads
      = (List.range n).map (fun t => (workerResult passes (reads t)).reads)) :
    o.sink = (o.timed_reads.map List.length).sum % 2 ^ 64 := by
  rw [hsink, htimed, List.map_map]
  have := sinkAfter_workerResults passes ((List.range n).map reads)
  rw [List.map_map, List.map_map] at this
  exact this

/-- C19 as stated fails: with `--size=1G --stride=1073741823 --iters=16777217`
(one sequential thread) each pass reads the offsets 0 and 134217727, so the
timed worker makes 33554434 reads and `stride_bytes` times the reads is
36028799132893182, which no `double` represents; the product is rounded to
36028799132893184 and that larger value is emitted, although the one thread
divides the element count. -/
theorem C19_counterexample :
    ∃ o, run ⟨fun _ => false, fun _ => 0⟩
        ⟨1073741824, 1073741823, 1, 16777217, "seq".toList, false⟩ = .ok o ∧
      o.stride_bytes = 1073741823 ∧
      (o.timed_reads.map List.length).sum = 33554434 ∧
      o.sink = 33554434 ∧
      o.total_bytes_touched = 36028799132893184 ∧
      o.stride_bytes * (o.timed_reads.map List.length).sum = 36028799132893182 ∧
      ¬ (o.total_bytes_touched ≤ o.stride_bytes * (o.timed_reads.map List.length).sum) ∧
      (1 : Int).toNat ∣ elementCount
        (clamp ⟨1073741824, 1073741823, 1, 16777217, "seq".toList, false⟩).size_bytes := by
  have hf : totalFits ⟨1073741824, 1073741823, 1, 16777217, "seq".toList, false⟩ = true := by
    unfold totalFits
    rw [totalBytesDouble_example]
    decide
  obtain ⟨o, hrun, htot, _, hstride, _, _, _, _, _, hsink, _, _, htimed⟩ :=
    run_ok ⟨fun _ => false, fun _ => 0⟩
      ⟨1073741824, 1073741823, 1, 16777217, "seq".toList, false⟩
      ⟨by decide, by decide, by decide, by decide, by decide, by decide⟩ rfl hf
  have hsum := seq_reads_sum (fun _ => 0)
    ⟨1073741824, 1073741823, 1, 16777217, "seq".toList, false⟩ (1 : Int).toNat (by decide)
  have hs : (clamp ⟨1073741824, 1073741823, 1, 16777217, "seq".toList, false⟩).stride_bytes
      = 1073741823 := by decide
  have hval : (16777217 : Int).toNat * ((List.range (1 : Int).toNat).map (fun t =>
        seqCount (boundary (elementCount
            (clamp ⟨1073741824, 1073741823, 1, 16777217, "seq".toList, false⟩).size_bytes)
            (1 : Int).toNat t)
          (boundary (elementCount
            (clamp ⟨1073741824, 1073741823, 1, 16777217, "seq".toList, false⟩).size_bytes)
            (1 : Int).toNat (t + 1))
          (strideElems
            (clamp ⟨1073741824, 1073741823, 1, 16777217, "seq".toList, false⟩).stride_bytes))).sum
      = 33554434 := by decide
  have hreads : (o.timed_reads.map List.length).sum = 33554434 := by
    rw [htimed]
    exact hsum.trans hval
  have htotal : o.total_bytes_touched = 36028799132893184 := by
    unfold totalBytesTouched at htot
    rw [totalBytesDouble_example, bind_ok] at htot
    have h3 : doubleToU64 36028799132893184 = .ok 36028799132893184 := by decide
    rw [h3] at htot
    exact (Except.ok.inj htot).symm
  have hsk : o.sink = 33554434 := by
    rw [sink_eq_reads o _ _ _ hsink htimed, hreads]
    decide
  refine ⟨o, hrun, hstride.trans hs, hreads, hsk, htotal, ?_, ?_, ?_⟩
  · rw [hstride, hs, hreads]
  · rw [htotal, hstride, hs, hreads]
    decide
  · exact one_dvd _

/-! ## Overflow of the size product -/

/-- C20. For a non-empty digit string `d` with value at most `2 ^ 64 - 1` and
a suffix `K k M m G g`, `parse_size` returns the product of the value and the
multiplier reduced modulo `2 ^ 64`, not an error; `17179869184G`, whose
product is `2 ^ 64`, gives 0, and the run started with it proceeds with
`size_bytes` clamped up to `stride_bytes`. -/
theorem C20_parse_size_product_wraps (d : List Char) (hne : d ≠ [])
    (hd : ∀ c, c ∈ d → isDigit c = true) (hv : digitsValue d ≤ 2 ^ 64 - 1) :
    (∀ k m, (k, m) ∈ [('K', 1024), ('k', 1024), ('M', 1024 ^ 2), ('m', 1024 ^ 2),
        ('G', 1024 ^ 3), ('g', 1024 ^ 3)] →
      parse_size (d ++ [k]) = .ok ((digitsValue d * m) % 2 ^ 64)) ∧
    digitsValue "17179869184".toList * 1024 ^ 3 = 2 ^ 64 ∧
    parse_size "17179869184G".toList = .ok 0 ∧
    (∀ env : Env, (mainProgram env ["--size=17179869184G".toList]).map
        (fun o => (o.size_bytes, o.stride_bytes, o.total_bytes_touched))
      = .ok (64, 64, 256)) := by
  refine ⟨?_, by decide, by decide, fun env => rfl⟩
  intro k m hkm
  have hs : suffixMult k = some m := by
    simp only [List.mem_cons, Prod.mk.injEq, List.mem_singleton, List.mem_nil_iff,
      or_false] at hkm
    rcases hkm with ⟨rfl, rfl⟩ | ⟨rfl, rfl⟩ | ⟨rfl, rfl⟩ | ⟨rfl, rfl⟩ | ⟨rfl, rfl⟩ | ⟨rfl, rfl⟩ <;>
      rfl
  have hst := stoull_leading_digits d [] hne hd (by intro c hc; cases hc) (by omega)
  rw [List.append_nil] at hst
  rw [parse_size_suffix d k m hs, hst, map_ok]

/-- Witness for C20: the digit string `17179869184`. -/
theorem C20_parse_size_wraps_witness :
    (∀ k m, (k, m) ∈ [('K', 1024), ('k', 1024), ('M', 1024 ^ 2), ('m', 1024 ^ 2),
        ('G', 1024 ^ 3), ('g', 1024 ^ 3)] →
      parse_size ("17179869184".toList ++ [k])
        = .ok ((digitsValue "17179869184".toList * m) % 2 ^ 64)) ∧
    digitsValue "17179869184".toList * 1024 ^ 3 = 2 ^ 64 ∧
    parse_size "17179869184G".toList = .ok 0 ∧
    (∀ env : Env, (mainProgram env ["--size=17179869184G".toList]).map
        (fun o => (o.size_bytes, o.stride_bytes, o.total_bytes_touched))
      = .ok (64, 64, 256)) :=
  C20_parse_size_product_wraps "17179869184".toList (by decide) (by decide) (by decide)

end CacheTlbKernel
